import Mathlib

/-!
Shallow embedding of the project-panel projection and navigation engine
(`crates/project_panel2/src/project_panel.rs`).

Modelling conventions:
* Paths (`std::path::Path`, relative to a worktree root) are lists of
  components (`List String`); `Path::parent` is `List.dropLast` (the root
  entry has path `[]` and no parent), `Path::join` appends components.
* `ProjectEntryId` and `WorktreeId` are `Nat`; the sentinel
  `NEW_ENTRY_ID = ProjectEntryId::MAX` is `2 ^ 64 - 1` (usize::MAX).
* A worktree `Snapshot` is its entry list in the depth-first order produced
  by `snapshot.entries(true)`; `advance_to_sibling` is modelled by dropping
  the contiguous block of strict descendants of the current entry.
  `propagate_git_statuses` mutates only the `git_status` field, which is not
  part of the model (it never affects ids, paths, kinds or ordering), so it
  is omitted.
* `UniCase`-based name comparison is modelled as comparison of the
  `toLower` images of the component strings.
* `sort_by` (a stable merge sort) is `List.mergeSort`.
* The sorted, duplicate-free expansion vectors are manipulated through
  `binary_search` + `insert`/`remove`; on such vectors this is exactly
  ordered insert / remove-first, which is how it is modelled.
* Asynchronous external calls (`create_entry`, `rename_entry`, `copy_entry`)
  are not performed; the functions return the `PendingOp` they would issue,
  `none` meaning no call is made.
* The `usize` subtraction overflow / out-of-bounds indexing panics that
  `select_prev` can hit are made explicit by returning `Except PanelPanic`.
-/

namespace ProjectPanel2

/-- `NEW_ENTRY_ID`: the reserved sentinel id, `ProjectEntryId::MAX`. -/
def NEW_ENTRY_ID : Nat := 2 ^ 64 - 1

/-- One worktree entry: stable id, root-relative path, and kind
(`EntryKind::File` when `isFile`, `EntryKind::Dir` otherwise). -/
structure Entry where
  id : Nat
  path : List String
  isFile : Bool
deriving DecidableEq

/-- A worktree snapshot: its entries in the depth-first traversal order
yielded by `snapshot.entries(true)`. -/
structure Snapshot where
  entries : List Entry
deriving DecidableEq

/-- `Worktree::entry_for_id`. -/
def entryForId (snap : Snapshot) (eid : Nat) : Option Entry :=
  snap.entries.find? (fun e => e.id == eid)

/-- `Worktree::entry_for_path`. -/
def entryForPath (snap : Snapshot) (p : List String) : Option Entry :=
  snap.entries.find? (fun e => e.path == p)

/-- `Worktree::root_entry`: the entry whose root-relative path is empty. -/
def rootEntry (snap : Snapshot) : Option Entry :=
  entryForPath snap []

/-- The ordered list of visible worktrees, each with its id
(`project.visible_worktrees`). -/
abbrev Project := List (Nat × Snapshot)

/-- `Project::worktree_for_id`. -/
def findWorktree (project : Project) (wid : Nat) : Option Snapshot :=
  (project.find? (fun p => p.1 == wid)).map (·.2)

/-- `Project::path_for_entry`: search every worktree for the entry id. -/
def pathForEntry : Project → Nat → Option (List String)
  | [], _ => none
  | (_, snap) :: rest, eid =>
    match entryForId snap eid with
    | some e => some e.path
    | none => pathForEntry rest eid

/-- The `Selection` struct. -/
structure Selection where
  worktree_id : Nat
  entry_id : Nat
deriving DecidableEq

/-- The `EditState` struct. -/
structure EditState where
  worktree_id : Nat
  entry_id : Nat
  is_new_entry : Bool
  is_dir : Bool
  processing_filename : Option String
deriving DecidableEq

/-- The `ClipboardEntry` enum. -/
inductive ClipboardEntry where
  | copied (worktree_id entry_id : Nat)
  | cut (worktree_id entry_id : Nat)
deriving DecidableEq

/-- `ClipboardEntry::worktree_id`. -/
def ClipboardEntry.wid : ClipboardEntry → Nat
  | .copied w _ => w
  | .cut w _ => w

/-- `ClipboardEntry::entry_id`. -/
def ClipboardEntry.eid : ClipboardEntry → Nat
  | .copied _ e => e
  | .cut _ e => e

/-- `ClipboardEntry::is_cut`. -/
def ClipboardEntry.isCut : ClipboardEntry → Bool
  | .copied _ _ => false
  | .cut _ _ => true

/-- The engine-owned mutable state of `ProjectPanel` (fields relevant to the
projection/navigation engine). -/
structure PanelState where
  visible_entries : List (Nat × List Entry)
  expanded_dir_ids : List (Nat × List Nat)
  selection : Option Selection
  edit_state : Option EditState
  clipboard_entry : Option ClipboardEntry
deriving DecidableEq

/-- Lookup of a root's expansion vector (`expanded_dir_ids.get`). -/
def lookupExpanded (m : List (Nat × List Nat)) (wid : Nat) : Option (List Nat) :=
  (m.find? (fun p => p.1 == wid)).map (·.2)

/-- Replace (or add) a root's expansion vector, the effect of writing through
`expanded_dir_ids.get_mut` / `entry(..)`. -/
def setExpanded (m : List (Nat × List Nat)) (wid : Nat) (l : List Nat) :
    List (Nat × List Nat) :=
  match m with
  | [] => [(wid, l)]
  | (w, v) :: rest => if w = wid then (w, l) :: rest else (w, v) :: setExpanded rest wid l

/-- `binary_search` + `insert` on a sorted duplicate-free vector: ordered
insert, no-op when present. -/
def expandInsert (l : List Nat) (x : Nat) : List Nat :=
  match l with
  | [] => [x]
  | y :: rest =>
    if x < y then x :: y :: rest
    else if x = y then y :: rest
    else y :: expandInsert rest x

/-- `binary_search` + `remove` on a sorted duplicate-free vector: remove the
first occurrence, no-op when absent. -/
def removeSorted (l : List Nat) (x : Nat) : List Nat :=
  match l with
  | [] => []
  | y :: rest => if y = x then rest else y :: removeSorted rest x

/-- `bool::cmp` (false sorts before true, so directories sort first). -/
def boolCmp (a b : Bool) : Ordering :=
  if a = b then .eq else if a then .gt else .lt

/-- Character-wise lowercasing (the computable spelling of
`String.toLower`). -/
def lowerStr (s : String) : String := ⟨s.data.map Char.toLower⟩

/-- Structural lexicographic comparison of character lists; agrees with the
`<` of `String` on the underlying data (proved below). -/
def charListLt : List Char → List Char → Bool
  | [], [] => false
  | [], _ :: _ => true
  | _ :: _, [] => false
  | a :: as, b :: bs =>
    if a < b then true else if b < a then false else charListLt as bs

/-- `UniCase::cmp`, modelled as ordering of the lowercased strings. -/
def nameCmp (a b : String) : Ordering :=
  if charListLt (lowerStr a).data (lowerStr b).data then .lt
  else if charListLt (lowerStr b).data (lowerStr a).data then .gt
  else .eq

/-- The per-component sort key of `update_visible_entries`'s comparator:
is-a-file-at-its-last-component first, then case-insensitive name. -/
def stepCmp (x y : Bool × String) : Ordering :=
  (boolCmp x.1 y.1).then (nameCmp x.2 y.2)

/-- The hierarchical component-wise comparator of
`update_visible_entries`'s `sort_by` closure. -/
def compareComponents (aIsFile bIsFile : Bool) :
    List String → List String → Ordering
  | a :: restA, b :: restB =>
    let ord := stepCmp (restA.isEmpty && aIsFile, a) (restB.isEmpty && bIsFile, b)
    if ord = .eq then compareComponents aIsFile bIsFile restA restB else ord
  | _ :: _, [] => .gt
  | [], _ :: _ => .lt
  | [], [] => .eq

/-- The boolean "sorts no later than" relation induced by the comparator. -/
def entryLe (a b : Entry) : Bool :=
  decide (compareComponents a.isFile b.isFile a.path b.path ≠ Ordering.gt)

/-- The file name of an entry: the last component of its path. -/
def lastName (e : Entry) : String := e.path.getLastD ""

instance {ε α : Type} [DecidableEq ε] [DecidableEq α] : DecidableEq (Except ε α) := fun x y =>
  match x, y with
  | .ok a, .ok b =>
    if h : a = b then .isTrue (by rw [h]) else .isFalse (fun hc => h (Except.ok.inj hc))
  | .error a, .error b =>
    if h : a = b then .isTrue (by rw [h]) else .isFalse (fun hc => h (Except.error.inj hc))
  | .ok _, .error _ => .isFalse (fun hc => Except.noConfusion hc)
  | .error _, .ok _ => .isFalse (fun hc => Except.noConfusion hc)

/-- Strict-descendant test: the entries skipped by `advance_to_sibling`
after an unexpanded directory. -/
def descendsFrom (base : List String) (e : Entry) : Bool :=
  base.isPrefixOf e.path && decide (base.length < e.path.length)

/-- The synthetic placeholder entry inserted after its anchor: sentinel id,
anchor path joined with `"\0"`, kind from the edit session. -/
def syntheticEntry (anchor : Entry) (newIsDir : Bool) : Entry :=
  { id := NEW_ENTRY_ID, path := anchor.path ++ ["\x00"], isFile := !newIsDir }

/-- The collection loop of `update_visible_entries`: emit each entry, follow
it with the synthetic entry when it is the new-entry anchor, and skip the
subtree of any directory not in the expansion set. The fuel keeps the
recursion structural; each iteration consumes one element and moves to a
suffix of the remainder, so a fuel equal to the list length is never
exhausted. -/
def buildVisibleGoF (isExp : Nat → Bool) (newParent : Option (Nat × Bool)) :
    Nat → List Entry → List Entry
  | _, [] => []
  | 0, _ :: _ => []
  | Nat.succ fuel, e :: rest =>
    (e :: (match newParent with
           | some (pid, isDir) => if pid = e.id then [syntheticEntry e isDir] else []
           | none => [])) ++
      buildVisibleGoF isExp newParent fuel
        (if isExp e.id then rest else rest.dropWhile (descendsFrom e.path))

/-- The collection loop run with sufficient fuel. -/
def buildVisibleGo (isExp : Nat → Bool) (newParent : Option (Nat × Bool))
    (l : List Entry) : List Entry :=
  buildVisibleGoF isExp newParent l.length l

/-- `List.merge`, fuel-structured so it reduces definitionally (the fuel is
an upper bound on the total length, never exhausted when sufficient). -/
def mergeF {α : Type} (le : α → α → Bool) : Nat → List α → List α → List α
  | _, [], ys => ys
  | _, x :: xs, [] => x :: xs
  | 0, _ :: _, _ :: _ => []
  | Nat.succ fuel, x :: xs, y :: ys =>
    if le x y then x :: mergeF le fuel xs (y :: ys)
    else y :: mergeF le fuel (x :: xs) ys

/-- Rust's stable `sort_by` (a top-down stable merge sort), fuel-structured
mirror of `List.mergeSort`; proved equal to it below, so its sortedness and
permutation properties transfer. -/
def mergeSortF {α : Type} (le : α → α → Bool) : Nat → List α → List α
  | _, [] => []
  | _, [a] => [a]
  | 0, a :: b :: xs => a :: b :: xs
  | Nat.succ fuel, a :: b :: xs =>
    let n := (a :: b :: xs).length
    let left := mergeSortF le fuel ((a :: b :: xs).take ((n + 1) / 2))
    let right := mergeSortF le fuel ((a :: b :: xs).drop ((n + 1) / 2))
    mergeF le (left.length + right.length) left right

/-- `sort_by` with the fuel instantiated. -/
def sortBy {α : Type} (le : α → α → Bool) (l : List α) : List α :=
  mergeSortF le l.length l

/-- The new-entry anchor for one worktree: set only when the edit session
belongs to this worktree and is a new-entry creation. -/
def newEntryAnchor (edit : Option EditState) (wid : Nat) : Option (Nat × Bool) :=
  match edit with
  | some es =>
    if es.worktree_id = wid && es.is_new_entry then some (es.entry_id, es.is_dir) else none
  | none => none

/-- One worktree's rebuilt entry vector: collect, then stable-sort with the
hierarchical comparator. -/
def buildWorktree (edit : Option EditState) (wid : Nat) (expanded : List Nat)
    (snap : Snapshot) : List Entry :=
  sortBy entryLe
    (buildVisibleGo (fun i => expanded.contains i) (newEntryAnchor edit wid)
      snap.entries)

/-- The `expanded_dir_ids.entry(worktree_id)` step of the rebuild: an
occupied entry is reused; a vacant one is filled with `[root_entry.id]` when
the root entry exists, and `[]` is used (without inserting) otherwise. -/
def updateExpandedForWorktree (m : List (Nat × List Nat)) (wid : Nat)
    (snap : Snapshot) : List (Nat × List Nat) × List Nat :=
  match lookupExpanded m wid with
  | some l => (m, l)
  | none =>
    match rootEntry snap with
    | some root => (m ++ [(wid, [root.id])], [root.id])
    | none => (m, [])

/-- The per-worktree loop of `update_visible_entries`, threading the
expansion map. -/
def updateVisibleEntriesGo (edit : Option EditState) :
    Project → List (Nat × List Nat) →
    List (Nat × List Nat) × List (Nat × List Entry)
  | [], m => (m, [])
  | (wid, snap) :: rest, m =>
    let step := updateExpandedForWorktree m wid snap
    let built := buildWorktree edit wid step.2 snap
    let tail := updateVisibleEntriesGo edit rest step.1
    (tail.1, (wid, built) :: tail.2)

/-- `ProjectPanel::update_visible_entries`. -/
def updateVisibleEntries (project : Project) (st : PanelState)
    (newSel : Option (Nat × Nat)) : PanelState :=
  let rebuilt := updateVisibleEntriesGo st.edit_state project st.expanded_dir_ids
  { st with
    visible_entries := rebuilt.2
    expanded_dir_ids := rebuilt.1
    selection :=
      match newSel with
      | some (wid, eid) => some { worktree_id := wid, entry_id := eid }
      | none => st.selection }

/-- Number of synthetic (sentinel-id) entries in one root's vector. -/
def countSyntheticIn (es : List Entry) : Nat :=
  es.countP (fun e => e.id == NEW_ENTRY_ID)

/-- Number of entries of `l` matching the new-entry anchor (0 when no
anchor is active). -/
def anchorCount (np : Option (Nat × Bool)) (l : List Entry) : Nat :=
  match np with
  | some pb => l.countP (fun e => e.id == pb.1)
  | none => 0

/-- Number of synthetic entries across the whole visible projection. -/
def countSynthetic (ve : List (Nat × List Entry)) : Nat :=
  (ve.map (fun p => countSyntheticIn p.2)).sum

/-- The inner scan of `index_for_selection`: index of the first entry with
the given id. -/
def findEntryIdx (eid : Nat) : List Entry → Option Nat
  | [] => none
  | e :: rest => if e.id = eid then some 0 else (findEntryIdx eid rest).map (· + 1)

/-- The scan of `index_for_selection`, carrying the enumeration index and
the running flat index. -/
def indexForSelectionGo (sel : Selection) :
    List (Nat × List Entry) → Nat → Nat → Option (Nat × Nat × Nat)
  | [], _, _ => none
  | (wid, entries) :: rest, wix, acc =>
    if wid = sel.worktree_id then
      (findEntryIdx sel.entry_id entries).map (fun i => (wix, i, acc + i))
    else indexForSelectionGo sel rest (wix + 1) (acc + entries.length)

/-- `ProjectPanel::index_for_selection`:
`(worktree index, entry index within that worktree, flat index)`. -/
def indexForSelection (ve : List (Nat × List Entry)) (sel : Selection) :
    Option (Nat × Nat × Nat) :=
  indexForSelectionGo sel ve 0 0

/-- The flat concatenation of the visible projection, each entry tagged with
its worktree id. -/
def flatVE : List (Nat × List Entry) → List (Nat × Entry)
  | [] => []
  | (wid, entries) :: rest => entries.map (fun e => (wid, e)) ++ flatVE rest

/-- Total number of visible entries (the item count handed to the
uniform list). -/
def totalLen (ve : List (Nat × List Entry)) : Nat :=
  (ve.map (fun p => p.2.length)).sum

/-- Sum of the lengths of the first `w` worktree vectors. -/
def lenSumTake (ve : List (Nat × List Entry)) (w : Nat) : Nat :=
  totalLen (ve.take w)

/-- The range walk of `for_each_visible_entry`, collecting the entry ids
passed to the callback for the half-open range `[start, stop)`. -/
def forEachGo (project : Project) :
    List (Nat × List Entry) → Nat → Nat → Nat → List Nat
  | [], _, _, _ => []
  | (wid, entries) :: rest, ix, start, stop =>
    if stop ≤ ix then []
    else if ix + entries.length ≤ start then
      forEachGo project rest (ix + entries.length) start stop
    else
      let endIx := min stop (ix + entries.length)
      let emitted :=
        match findWorktree project wid with
        | some _ => ((entries.take (endIx - ix)).drop (start - ix)).map (·.id)
        | none => []
      emitted ++ forEachGo project rest endIx start stop

/-- `ProjectPanel::for_each_visible_entry` restricted to the ids it hands to
its callback. -/
def forEachVisibleEntryIds (project : Project) (st : PanelState)
    (start stop : Nat) : List Nat :=
  forEachGo project st.visible_entries 0 start stop

/-- `ProjectPanel::selected_entry`: resolve the current selection. -/
def selectedEntry (project : Project) (st : PanelState) :
    Option (Nat × Snapshot × Entry) :=
  match st.selection with
  | none => none
  | some sel =>
    match findWorktree project sel.worktree_id with
    | none => none
    | some snap =>
      match entryForId snap sel.entry_id with
      | none => none
      | some e => some (sel.worktree_id, snap, e)

/-- `ProjectPanel::select_first`. -/
def selectFirst (project : Project) (st : PanelState) : PanelState :=
  match st.visible_entries.head? with
  | none => st
  | some (wid, _) =>
    match findWorktree project wid with
    | none => st
    | some snap =>
      match rootEntry snap with
      | none => st
      | some root =>
        { st with selection := some { worktree_id := wid, entry_id := root.id } }

/-- `ProjectPanel::select_next`. -/
def selectNext (project : Project) (st : PanelState) : PanelState :=
  match st.selection with
  | none => selectFirst project st
  | some sel =>
    match (indexForSelection st.visible_entries sel).getD (0, 0, 0) with
    | (wix0, eix0, _) =>
      let moved :=
        match st.visible_entries[wix0]? with
        | some (_, entries) =>
          if eix0 + 1 < entries.length then (wix0, eix0 + 1) else (wix0 + 1, 0)
        | none => (wix0, eix0)
      match st.visible_entries[moved.1]? with
      | some (wid, entries) =>
        match entries[moved.2]? with
        | some entry =>
          { st with selection := some { worktree_id := wid, entry_id := entry.id } }
        | none => st
      | none => st

/-- The panics `select_prev` can hit: `usize` subtraction overflow on an
empty previous root, or out-of-bounds vector indexing. -/
inductive PanelPanic where
  | lenUnderflow
  | indexOutOfBounds
deriving DecidableEq

/-- `ProjectPanel::select_prev`, with its possible panics made explicit. -/
def selectPrev (project : Project) (st : PanelState) :
    Except PanelPanic PanelState :=
  match st.selection with
  | none => .ok (selectFirst project st)
  | some sel =>
    match (indexForSelection st.visible_entries sel).getD (0, 0, 0) with
    | (wix0, eix0, _) =>
      if 0 < eix0 then
        match st.visible_entries[wix0]? with
        | some (wid, entries) =>
          match entries[eix0 - 1]? with
          | some entry =>
            .ok { st with selection := some { worktree_id := wid, entry_id := entry.id } }
          | none => .error .indexOutOfBounds
        | none => .error .indexOutOfBounds
      else if 0 < wix0 then
        match st.visible_entries[wix0 - 1]? with
        | some (wid, entries) =>
          if entries.length = 0 then .error .lenUnderflow
          else
            match entries[entries.length - 1]? with
            | some entry =>
              .ok { st with selection := some { worktree_id := wid, entry_id := entry.id } }
            | none => .error .indexOutOfBounds
        | none => .error .indexOutOfBounds
      else .ok st

/-- The external filesystem call a panel operation would issue. -/
inductive PendingOp where
  | createEntry (worktree_id : Nat) (path : List String) (is_dir : Bool)
  | renameEntry (entry_id : Nat) (path : List String)
  | copyEntry (entry_id : Nat) (path : List String)
deriving DecidableEq

/-- Split a character list at `'/'` separators, accumulating the current
segment. -/
def splitSlashAux : List Char → List Char → List String
  | [], acc => [⟨acc.reverse⟩]
  | c :: cs, acc =>
    if c = '/' then ⟨acc.reverse⟩ :: splitSlashAux cs []
    else splitSlashAux cs (c :: acc)

/-- Split typed text into path components (leading separators stripped, as
`trim_start_matches("/")` followed by `Path::join` does; empty segments
from repeated or trailing separators contribute no component). -/
def pathComponents (s : String) : List String :=
  (splitSlashAux s.data []).filter (fun c => c != "")

/-- `ProjectPanel::confirm_edit`. Returns the updated panel state and the
external call to issue, `none` meaning the submission did not happen. -/
def confirmEdit (project : Project) (filename : String) (st : PanelState) :
    PanelState × Option PendingOp :=
  match st.edit_state with
  | none => (st, none)
  | some es =>
    match findWorktree project es.worktree_id with
    | none => (st, none)
    | some snap =>
      match entryForId snap es.entry_id with
      | none => (st, none)
      | some entry =>
        if es.is_new_entry then
          let st1 := { st with
            selection := some { worktree_id := es.worktree_id, entry_id := NEW_ENTRY_ID } }
          let newPath := entry.path ++ pathComponents filename
          if (entryForPath snap newPath).isSome then (st1, none)
          else
            ({ st1 with edit_state := some { es with processing_filename := some filename } },
             some (.createEntry es.worktree_id newPath es.is_dir))
        else
          let newPath := entry.path.dropLast ++ pathComponents filename
          if (entryForPath snap newPath).isSome then (st, none)
          else
            ({ st with edit_state := some { es with processing_filename := some filename } },
             some (.renameEntry entry.id newPath))

/-- `Path::ancestors` (fuel-structured): the path and all its prefixes down
to the root; each step shortens the path by exactly one component, so a fuel
equal to the path length is never exhausted. -/
def ancestorsOfF : Nat → List String → List (List String)
  | _, [] => [[]]
  | 0, _ :: _ => []
  | Nat.succ fuel, c :: rest => (c :: rest) :: ancestorsOfF fuel (c :: rest).dropLast

/-- `Path::ancestors`: the path and all its prefixes down to the root. -/
def ancestorsOf (p : List String) : List (List String) :=
  ancestorsOfF p.length p

/-- The loop body of `expand_to_selection`: insert every directory ancestor
into the expansion vector. -/
def insertAncestors (snap : Snapshot) (expanded : List Nat) :
    List (List String) → List Nat
  | [] => expanded
  | p :: rest =>
    let expanded1 :=
      match entryForPath snap p with
      | some e => if e.isFile then expanded else expandInsert expanded e.id
      | none => expanded
    insertAncestors snap expanded1 rest

/-- `ProjectPanel::expand_to_selection`. -/
def expandToSelection (project : Project) (st : PanelState) : PanelState :=
  match selectedEntry project st with
  | none => st
  | some (wid, snap, entry) =>
    let expanded := (lookupExpanded st.expanded_dir_ids wid).getD []
    { st with
      expanded_dir_ids :=
        setExpanded st.expanded_dir_ids wid
          (insertAncestors snap expanded (ancestorsOf entry.path)) }

/-- The completion callback spawned by `confirm_edit`: clear the edit
session first, then propagate the task's error, then (on success) retarget
the selection and rebuild. -/
def confirmCompletion (project : Project) (worktree_id edited_entry_id : Nat)
    (st : PanelState) (result : Except String (Option Entry)) :
    PanelState × Except String Unit :=
  let st1 := { st with edit_state := none }
  match result with
  | .error e => (st1, .error e)
  | .ok none => (st1, .ok ())
  | .ok (some newEntry) =>
    let st2 :=
      match st1.selection with
      | some sel =>
        if sel.entry_id = edited_entry_id then
          expandToSelection project
            { st1 with
              selection := some { worktree_id := worktree_id, entry_id := newEntry.id } }
        else st1
      | none => st1
    (updateVisibleEntries project st2 none, .ok ())

/-- The walk in `add_entry` that finds the nearest enclosing directory of
the selected entry (fuel bounds the parent chain). -/
def findEnclosingDir (snap : Snapshot) : Nat → Entry → Option Entry
  | fuel, e =>
    if e.isFile = false then some e
    else
      match fuel with
      | 0 => none
      | Nat.succ fuel1 =>
        match e.path with
        | [] => none
        | _ :: _ =>
          match entryForPath snap e.path.dropLast with
          | some pe => findEnclosingDir snap fuel1 pe
          | none => none

/-- `ProjectPanel::add_entry` (the shared body of new-file /
new-directory). -/
def addEntry (project : Project) (is_dir : Bool) (st : PanelState) : PanelState :=
  match st.selection with
  | none => st
  | some sel =>
    match findWorktree project sel.worktree_id,
          lookupExpanded st.expanded_dir_ids sel.worktree_id with
    | some snap, some expanded =>
      match entryForId snap sel.entry_id with
      | none => st
      | some entry =>
        match findEnclosingDir snap (entry.path.length + 1) entry with
        | none => st
        | some dirEntry =>
          let st1 := { st with
            expanded_dir_ids :=
              setExpanded st.expanded_dir_ids sel.worktree_id
                (expandInsert expanded dirEntry.id)
            edit_state := some
              { worktree_id := sel.worktree_id, entry_id := dirEntry.id,
                is_new_entry := true, is_dir := is_dir,
                processing_filename := none } }
          updateVisibleEntries project st1 (some (sel.worktree_id, NEW_ENTRY_ID))
    | _, _ => st

/-- `ProjectPanel::rename`. -/
def renameAction (project : Project) (st : PanelState) : PanelState :=
  match st.selection with
  | none => st
  | some sel =>
    match findWorktree project sel.worktree_id with
    | none => st
    | some snap =>
      match entryForId snap sel.entry_id with
      | none => st
      | some entry =>
        let st1 := { st with
          edit_state := some
            { worktree_id := sel.worktree_id, entry_id := sel.entry_id,
              is_new_entry := false, is_dir := entry.isFile = false,
              processing_filename := none } }
        updateVisibleEntries project st1 none

/-- `ProjectPanel::expand_selected_entry`. -/
def expandSelectedEntry (project : Project) (st : PanelState) : PanelState :=
  match selectedEntry project st with
  | none => st
  | some (wid, _, entry) =>
    if entry.isFile then st
    else
      match lookupExpanded st.expanded_dir_ids wid with
      | none => st
      | some expanded =>
        if expanded.contains entry.id then selectNext project st
        else
          updateVisibleEntries project
            { st with
              expanded_dir_ids :=
                setExpanded st.expanded_dir_ids wid (expandInsert expanded entry.id) }
            none

/-- The ancestor-walking loop of `collapse_selected_entry` (fuel bounds the
parent chain). -/
def collapseLoop (project : Project) (wid : Nat) (snap : Snapshot)
    (st : PanelState) (expanded : List Nat) : Nat → Entry → PanelState
  | fuel, e =>
    if expanded.contains e.id then
      updateVisibleEntries project
        { st with
          expanded_dir_ids :=
            setExpanded st.expanded_dir_ids wid (removeSorted expanded e.id) }
        (some (wid, e.id))
    else
      match fuel with
      | 0 => st
      | Nat.succ fuel1 =>
        match e.path with
        | [] => st
        | _ :: _ =>
          match entryForPath snap e.path.dropLast with
          | some pe => collapseLoop project wid snap st expanded fuel1 pe
          | none => st

/-- `ProjectPanel::collapse_selected_entry`. -/
def collapseSelectedEntry (project : Project) (st : PanelState) : PanelState :=
  match selectedEntry project st with
  | none => st
  | some (wid, snap, entry) =>
    match lookupExpanded st.expanded_dir_ids wid with
    | none => st
    | some expanded =>
      collapseLoop project wid snap st expanded (entry.path.length + 1) entry

/-- Split off the final extension the way `Path::file_stem` /
`Path::extension` do on the tail after the first character (a leading dot
never separates an extension): returns `(stem chars, extension chars)` for
the last dot, `none` if there is no dot. -/
def splitAtLastDot : List Char → Option (List Char × List Char)
  | [] => none
  | c :: cs =>
    match splitAtLastDot cs with
    | some (st, ext) => some (c :: st, ext)
    | none => if c = '.' then some ([], cs) else none

/-- `file_stem` and `extension` of a file name, Rust semantics. -/
def rustFileStemExt (name : String) : String × Option String :=
  match name.data with
  | [] => (name, none)
  | c :: cs =>
    match splitAtLastDot cs with
    | some (st, ext) => (⟨c :: st⟩, some ⟨ext⟩)
    | none => (name, none)

/-- The candidate file name built on collision number `ix` of the paste
loop: `stem ++ " copy"`, then `" copy N"`, with the original extension
re-appended unchanged. -/
def mkCopyName (stem : String) (ext : Option String) (ix : Nat) : String :=
  stem ++ " copy" ++ (if 0 < ix then " " ++ Nat.repr ix else "") ++
    (match ext with | some e => "." ++ e | none => "")

/-- The collision loop of `ProjectPanel::paste` (fuel makes the `while`
loop a total function; `none` is fuel exhaustion, which a sufficient fuel
never hits). -/
def pasteLoop (existsP : List String → Bool) (dir : List String)
    (stem : String) (ext : Option String) :
    Nat → List String → Nat → Option (List String)
  | 0, _, _ => none
  | Nat.succ fuel, path, ix =>
    if existsP path then
      pasteLoop existsP dir stem ext fuel (dir ++ [mkCopyName stem ext ix]) (ix + 1)
    else some path

/-- The path tested at step `t` of the paste collision loop that starts at
`path` with collision counter `ix`. -/
def pathAt (dir : List String) (stem : String) (ext : Option String)
    (path : List String) (ix : Nat) : Nat → List String
  | 0 => path
  | Nat.succ t => dir ++ [mkCopyName stem ext (ix + t)]

/-- The destination-path computation of `ProjectPanel::paste`: start at
`dir/name`, derive stem and extension from the clipboard file name, and run
the collision loop. -/
def pasteDestination (existsP : List String → Bool) (dir : List String)
    (cname : String) (fuel : Nat) : Option (List String) :=
  let stemExt := rustFileStemExt cname
  pasteLoop existsP dir stemExt.1 stemExt.2 fuel (dir ++ [cname]) 0

/-- `ProjectPanel::paste`. -/
def pasteModel (project : Project) (st : PanelState) : Option PendingOp :=
  match selectedEntry project st with
  | none => none
  | some (wid, snap, entry) =>
    match st.clipboard_entry with
    | none => none
    | some clip =>
      if clip.wid != wid then none
      else
        match pathForEntry project clip.eid with
        | none => none
        | some cpath =>
          match cpath.getLast? with
          | none => none
          | some cname =>
            let dir := if entry.isFile then entry.path.dropLast else entry.path
            match pasteDestination (fun p => (entryForPath snap p).isSome) dir cname
                (snap.entries.length + 2) with
            | none => none
            | some dest =>
              some (if clip.isCut then .renameEntry clip.eid dest
                    else .copyEntry clip.eid dest)

/-! ### Concrete sample data (used to instantiate the theorems) -/

/-- Sample worktree 1: `.git/`, `a/` (with `a/x.txt`), `b/`, `C/`,
`.dockerignore`, in depth-first traversal order. -/
def exSnap1 : Snapshot :=
  ⟨[⟨1, [], false⟩, ⟨6, [".dockerignore"], true⟩, ⟨2, [".git"], false⟩,
    ⟨5, ["C"], false⟩, ⟨3, ["a"], false⟩, ⟨31, ["a", "x.txt"], true⟩,
    ⟨4, ["b"], false⟩]⟩

/-- Sample worktree 2: `d/`, `e/`. -/
def exSnap2 : Snapshot :=
  ⟨[⟨7, [], false⟩, ⟨8, ["d"], false⟩, ⟨9, ["e"], false⟩]⟩

/-- Sample project with two roots. -/
def exProject : Project := [(10, exSnap1), (20, exSnap2)]

/-- A fresh panel state (nothing expanded or selected yet). -/
def exStateEmpty : PanelState := ⟨[], [], none, none, none⟩

/-- The sorted entry vector the rebuild produces for root 10 of the sample
project when only the root entry is expanded. -/
def exSorted1 : List Entry :=
  [⟨1, [], false⟩, ⟨2, [".git"], false⟩, ⟨3, ["a"], false⟩, ⟨4, ["b"], false⟩,
   ⟨5, ["C"], false⟩, ⟨6, [".dockerignore"], true⟩]

/-- An edit session submitting a new entry under the root whose typed name
collides with the existing entry `b`. -/
def exStateC2 : PanelState :=
  ⟨[], [], some ⟨10, 3⟩, some ⟨10, 1, true, false, none⟩, none⟩

/-- A project holding only the first sample root. -/
def exProjectA : Project := [(10, exSnap1)]

/-- A panel state over the single-root project with the root and the
directory `a` both expanded, and `a` selected. -/
def exStateC7 : PanelState :=
  updateVisibleEntries exProjectA ⟨[], [(10, [1, 3])], some ⟨10, 3⟩, none, none⟩ none

/-- A panel state over the single-root project with only the root expanded
and the still-collapsed directory `a` selected. -/
def exStateC7w : PanelState :=
  updateVisibleEntries exProjectA ⟨[], [(10, [1])], some ⟨10, 3⟩, none, none⟩ none

/-- A Submitting rename session on `a/x.txt`, the selection still on the
renamed entry. -/
def exStateC8 : PanelState :=
  ⟨[], [(10, [1])], some ⟨10, 31⟩, some ⟨10, 31, false, false, some "y.txt"⟩, none⟩

/-- A Submitting new-entry session: the selection sits on the sentinel
placeholder id. -/
def exStateC8w : PanelState :=
  ⟨[], [(10, [1])], some ⟨10, NEW_ENTRY_ID⟩,
   some ⟨10, 1, true, false, some "n.txt"⟩, none⟩

/-! ### Properties of the sort comparator -/

theorem charListLt_iff : ∀ (x y : List Char), charListLt x y = true ↔ x < y := by
  intro x
  induction x with
  | nil =>
    intro y
    cases y with
    | nil =>
      constructor
      · intro h; exact Bool.noConfusion h
      · intro h; cases h
    | cons b bs =>
      constructor
      · intro _; exact List.Lex.nil
      · intro _; rfl
  | cons a as ih =>
    intro y
    cases y with
    | nil =>
      constructor
      · intro h; exact Bool.noConfusion h
      · intro h; cases h
    | cons b bs =>
      show (if a < b then true else if b < a then false else charListLt as bs) = true ↔ _
      by_cases hab : a < b
      · rw [if_pos hab]
        exact ⟨fun _ => List.Lex.rel hab, fun _ => rfl⟩
      · rw [if_neg hab]
        by_cases hba : b < a
        · rw [if_pos hba]
          constructor
          · intro h; exact Bool.noConfusion h
          · intro h
            cases h with
            | cons h3 => exact absurd hba (lt_irrefl _)
            | rel hh => exact absurd hh hab
        · rw [if_neg hba]
          have heq : a = b := le_antisymm (not_lt.mp hba) (not_lt.mp hab)
          subst heq
          constructor
          · intro h; exact List.Lex.cons ((ih bs).mp h)
          · intro h
            cases h with
            | cons h3 => exact (ih bs).mpr h3
            | rel hh => exact absurd hh hab

theorem charListLt_lt {a b : String} : charListLt a.data b.data = true ↔ a < b := by
  rw [String.lt_iff_toList_lt]
  exact charListLt_iff _ _

theorem ordering_ne_gt {o : Ordering} : o ≠ .gt ↔ o = .lt ∨ o = .eq := by
  cases o <;> decide

theorem boolCmp_eq_eq {a b : Bool} : boolCmp a b = .eq ↔ a = b := by
  cases a <;> cases b <;> decide

theorem boolCmp_eq_lt {a b : Bool} : boolCmp a b = .lt ↔ a = false ∧ b = true := by
  cases a <;> cases b <;> decide

theorem boolCmp_eq_gt {a b : Bool} : boolCmp a b = .gt ↔ a = true ∧ b = false := by
  cases a <;> cases b <;> decide

theorem othen_eq_lt {o p : Ordering} :
    o.then p = .lt ↔ o = .lt ∨ (o = .eq ∧ p = .lt) := by
  cases o <;> simp [Ordering.then]

theorem othen_eq_gt {o p : Ordering} :
    o.then p = .gt ↔ o = .gt ∨ (o = .eq ∧ p = .gt) := by
  cases o <;> simp [Ordering.then]

theorem othen_eq_eq {o p : Ordering} :
    o.then p = .eq ↔ o = .eq ∧ p = .eq := by
  cases o <;> simp [Ordering.then]

theorem nameCmp_eq_lt {a b : String} : nameCmp a b = .lt ↔ lowerStr a < lowerStr b := by
  unfold nameCmp
  rcases lt_trichotomy (lowerStr a) (lowerStr b) with h | h | h
  · rw [if_pos (charListLt_lt.mpr h)]
    exact ⟨fun _ => h, fun _ => rfl⟩
  · have h1 : ¬ lowerStr a < lowerStr b := by rw [h]; exact lt_irrefl _
    have h2 : ¬ lowerStr b < lowerStr a := by rw [h]; exact lt_irrefl _
    rw [if_neg (fun hc => h1 (charListLt_lt.mp hc)),
      if_neg (fun hc => h2 (charListLt_lt.mp hc))]
    exact ⟨fun hc => Ordering.noConfusion hc, fun hc => absurd hc h1⟩
  · have h1 : ¬ lowerStr a < lowerStr b := lt_asymm h
    rw [if_neg (fun hc => h1 (charListLt_lt.mp hc)), if_pos (charListLt_lt.mpr h)]
    exact ⟨fun hc => Ordering.noConfusion hc, fun hc => absurd hc h1⟩

theorem nameCmp_eq_gt {a b : String} : nameCmp a b = .gt ↔ lowerStr b < lowerStr a := by
  unfold nameCmp
  rcases lt_trichotomy (lowerStr a) (lowerStr b) with h | h | h
  · have h2 : ¬ lowerStr b < lowerStr a := lt_asymm h
    rw [if_pos (charListLt_lt.mpr h)]
    exact ⟨fun hc => Ordering.noConfusion hc, fun hc => absurd hc h2⟩
  · have h1 : ¬ lowerStr a < lowerStr b := by rw [h]; exact lt_irrefl _
    have h2 : ¬ lowerStr b < lowerStr a := by rw [h]; exact lt_irrefl _
    rw [if_neg (fun hc => h1 (charListLt_lt.mp hc)),
      if_neg (fun hc => h2 (charListLt_lt.mp hc))]
    exact ⟨fun hc => Ordering.noConfusion hc, fun hc => absurd hc h2⟩
  · have h1 : ¬ lowerStr a < lowerStr b := lt_asymm h
    rw [if_neg (fun hc => h1 (charListLt_lt.mp hc)), if_pos (charListLt_lt.mpr h)]
    exact ⟨fun _ => h, fun _ => rfl⟩

theorem nameCmp_eq_eq {a b : String} : nameCmp a b = .eq ↔ lowerStr a = lowerStr b := by
  unfold nameCmp
  rcases lt_trichotomy (lowerStr a) (lowerStr b) with h | h | h
  · rw [if_pos (charListLt_lt.mpr h)]
    exact ⟨fun hc => Ordering.noConfusion hc, fun hc => absurd (hc ▸ h) (lt_irrefl _)⟩
  · have h1 : ¬ lowerStr a < lowerStr b := by rw [h]; exact lt_irrefl _
    have h2 : ¬ lowerStr b < lowerStr a := by rw [h]; exact lt_irrefl _
    rw [if_neg (fun hc => h1 (charListLt_lt.mp hc)),
      if_neg (fun hc => h2 (charListLt_lt.mp hc))]
    exact ⟨fun _ => h, fun _ => rfl⟩
  · have h1 : ¬ lowerStr a < lowerStr b := lt_asymm h
    rw [if_neg (fun hc => h1 (charListLt_lt.mp hc)), if_pos (charListLt_lt.mpr h)]
    exact ⟨fun hc => Ordering.noConfusion hc, fun hc => absurd (hc ▸ h) (lt_irrefl _)⟩

theorem nameCmp_self (a : String) : nameCmp a a = .eq := by
  unfold nameCmp
  have h1 : ¬ charListLt (lowerStr a).data (lowerStr a).data = true :=
    fun hc => lt_irrefl _ (charListLt_lt.mp hc)
  rw [if_neg h1, if_neg h1]

theorem stepCmp_eq_eq {x y : Bool × String} :
    stepCmp x y = .eq ↔ x.1 = y.1 ∧ lowerStr x.2 = lowerStr y.2 := by
  unfold stepCmp
  rw [othen_eq_eq, boolCmp_eq_eq, nameCmp_eq_eq]

theorem stepCmp_eq_lt {x y : Bool × String} :
    stepCmp x y = .lt ↔
      (x.1 = false ∧ y.1 = true) ∨ (x.1 = y.1 ∧ lowerStr x.2 < lowerStr y.2) := by
  unfold stepCmp
  rw [othen_eq_lt, boolCmp_eq_lt, boolCmp_eq_eq, nameCmp_eq_lt]

theorem stepCmp_eq_gt {x y : Bool × String} :
    stepCmp x y = .gt ↔
      (x.1 = true ∧ y.1 = false) ∨ (x.1 = y.1 ∧ lowerStr y.2 < lowerStr x.2) := by
  unfold stepCmp
  rw [othen_eq_gt, boolCmp_eq_gt, boolCmp_eq_eq, nameCmp_eq_gt]

theorem stepCmp_lt_lt {x y z : Bool × String}
    (h1 : stepCmp x y = .lt) (h2 : stepCmp y z = .lt) : stepCmp x z = .lt := by
  rw [stepCmp_eq_lt] at h1 h2 ⊢
  rcases h1 with ⟨hx, hy⟩ | ⟨hb, hs⟩ <;> rcases h2 with ⟨hy2, hz⟩ | ⟨hb2, hs2⟩
  · exact Or.inl ⟨hx, hz⟩
  · exact Or.inl ⟨hx, hb2 ▸ hy⟩
  · exact Or.inl ⟨hb.trans hy2, hz⟩
  · exact Or.inr ⟨hb.trans hb2, hs.trans hs2⟩

theorem stepCmp_lt_eq {x y z : Bool × String}
    (h1 : stepCmp x y = .lt) (h2 : stepCmp y z = .eq) : stepCmp x z = .lt := by
  rw [stepCmp_eq_lt] at h1 ⊢
  rw [stepCmp_eq_eq] at h2
  rcases h1 with ⟨hx, hy⟩ | ⟨hb, hs⟩
  · exact Or.inl ⟨hx, h2.1 ▸ hy⟩
  · exact Or.inr ⟨hb.trans h2.1, h2.2 ▸ hs⟩

theorem stepCmp_eq_then_lt {x y z : Bool × String}
    (h1 : stepCmp x y = .eq) (h2 : stepCmp y z = .lt) : stepCmp x z = .lt := by
  rw [stepCmp_eq_eq] at h1
  rw [stepCmp_eq_lt] at h2 ⊢
  rcases h2 with ⟨hy, hz⟩ | ⟨hb, hs⟩
  · exact Or.inl ⟨h1.1.trans hy, hz⟩
  · exact Or.inr ⟨h1.1.trans hb, h1.2 ▸ hs⟩

theorem stepCmp_eq_eq_trans {x y z : Bool × String}
    (h1 : stepCmp x y = .eq) (h2 : stepCmp y z = .eq) : stepCmp x z = .eq := by
  rw [stepCmp_eq_eq] at h1 h2 ⊢
  exact ⟨h1.1.trans h2.1, h1.2.trans h2.2⟩

theorem othen_swap (o p : Ordering) : (o.then p).swap = o.swap.then p.swap := by
  cases o <;> rfl

theorem boolCmp_swap (a b : Bool) : boolCmp b a = (boolCmp a b).swap := by
  cases a <;> cases b <;> rfl

theorem nameCmp_swap (a b : String) : nameCmp b a = (nameCmp a b).swap := by
  cases hv : nameCmp a b with
  | lt =>
    rw [nameCmp_eq_lt] at hv
    rw [nameCmp_eq_gt.mpr hv]
    rfl
  | eq =>
    rw [nameCmp_eq_eq] at hv
    rw [nameCmp_eq_eq.mpr hv.symm]
    rfl
  | gt =>
    rw [nameCmp_eq_gt] at hv
    rw [nameCmp_eq_lt.mpr hv]
    rfl

theorem stepCmp_swap (x y : Bool × String) : stepCmp y x = (stepCmp x y).swap := by
  unfold stepCmp
  rw [boolCmp_swap x.1 y.1, nameCmp_swap x.2 y.2, othen_swap]

theorem compareComponents_nil_left {aF bF : Bool} {cs : List String} :
    compareComponents aF bF [] cs ≠ .gt := by
  cases cs <;> exact fun h => Ordering.noConfusion h

theorem compareComponents_cons_cons (aF bF : Bool) (a b : String)
    (as bs : List String) :
    compareComponents aF bF (a :: as) (b :: bs) =
      (if stepCmp (as.isEmpty && aF, a) (bs.isEmpty && bF, b) = .eq then
        compareComponents aF bF as bs
       else stepCmp (as.isEmpty && aF, a) (bs.isEmpty && bF, b)) := by
  rfl

theorem compareComponents_trans (aF bF cF : Bool) :
    ∀ (as bs cs : List String),
      compareComponents aF bF as bs ≠ .gt →
      compareComponents bF cF bs cs ≠ .gt →
      compareComponents aF cF as cs ≠ .gt := by
  intro as
  induction as with
  | nil => intro bs cs _ _; exact compareComponents_nil_left
  | cons a as ih =>
    intro bs cs h1 h2
    cases bs with
    | nil => exact absurd rfl h1
    | cons b bs =>
      cases cs with
      | nil => exact absurd rfl h2
      | cons c cs =>
        rw [compareComponents_cons_cons] at h1 h2 ⊢
        by_cases hab : stepCmp (as.isEmpty && aF, a) (bs.isEmpty && bF, b) = .eq
        · rw [if_pos hab] at h1
          by_cases hbc : stepCmp (bs.isEmpty && bF, b) (cs.isEmpty && cF, c) = .eq
          · rw [if_pos hbc] at h2
            rw [if_pos (stepCmp_eq_eq_trans hab hbc)]
            exact ih bs cs h1 h2
          · rw [if_neg hbc] at h2
            rcases ordering_ne_gt.mp h2 with hlt | heq
            · have : stepCmp (as.isEmpty && aF, a) (cs.isEmpty && cF, c) = .lt :=
                stepCmp_eq_then_lt hab hlt
              rw [if_neg (by rw [this]; decide), this]
              decide
            · exact absurd heq hbc
        · rw [if_neg hab] at h1
          rcases ordering_ne_gt.mp h1 with hlt | heq
          · by_cases hbc : stepCmp (bs.isEmpty && bF, b) (cs.isEmpty && cF, c) = .eq
            · have : stepCmp (as.isEmpty && aF, a) (cs.isEmpty && cF, c) = .lt :=
                stepCmp_lt_eq hlt hbc
              rw [if_neg (by rw [this]; decide), this]
              decide
            · rw [if_neg hbc] at h2
              rcases ordering_ne_gt.mp h2 with hlt2 | heq2
              · have : stepCmp (as.isEmpty && aF, a) (cs.isEmpty && cF, c) = .lt :=
                  stepCmp_lt_lt hlt hlt2
                rw [if_neg (by rw [this]; decide), this]
                decide
              · exact absurd heq2 hbc
          · exact absurd heq hab

theorem compareComponents_swap (aF bF : Bool) :
    ∀ (as bs : List String),
      compareComponents bF aF bs as = (compareComponents aF bF as bs).swap := by
  intro as
  induction as with
  | nil => intro bs; cases bs <;> rfl
  | cons a as ih =>
    intro bs
    cases bs with
    | nil => rfl
    | cons b bs =>
      rw [compareComponents_cons_cons, compareComponents_cons_cons,
        stepCmp_swap]
      cases hv : stepCmp (as.isEmpty && aF, a) (bs.isEmpty && bF, b) with
      | lt => rfl
      | gt => rfl
      | eq => exact ih bs

theorem entryLe_trans (a b c : Entry) (h1 : entryLe a b = true)
    (h2 : entryLe b c = true) : entryLe a c = true := by
  simp only [entryLe, decide_eq_true_eq] at h1 h2 ⊢
  exact compareComponents_trans _ _ _ _ _ _ h1 h2

theorem entryLe_total (a b : Entry) : (entryLe a b || entryLe b a) = true := by
  simp only [entryLe, Bool.or_eq_true, decide_eq_true_eq]
  rw [compareComponents_swap a.isFile b.isFile a.path b.path]
  cases h : compareComponents a.isFile b.isFile a.path b.path <;>
    simp [h, Ordering.swap]

theorem compareComponents_sibling (aF bF : Bool) (na nb : String) :
    ∀ (p : List String),
      compareComponents aF bF (p ++ [na]) (p ++ [nb]) = stepCmp (aF, na) (bF, nb) := by
  intro p
  induction p with
  | nil =>
    rw [List.nil_append, List.nil_append, compareComponents_cons_cons]
    simp only [List.isEmpty_nil, Bool.true_and]
    cases hv : stepCmp (aF, na) (bF, nb) <;> rfl
  | cons c p ih =>
    rw [List.cons_append, List.cons_append, compareComponents_cons_cons]
    have h1 : (p ++ [na]).isEmpty = false := by simp
    have h2 : (p ++ [nb]).isEmpty = false := by simp
    rw [h1, h2]
    have hk : stepCmp (false && aF, c) (false && bF, c) = .eq := by
      unfold stepCmp
      rw [nameCmp_self]
      cases aF <;> cases bF <;> rfl
    rw [if_pos hk]
    exact ih

theorem entryLe_sibling {a b : Entry} (hle : entryLe a b = true)
    (ha : a.path ≠ []) (hb : b.path ≠ [])
    (hpar : a.path.dropLast = b.path.dropLast) :
    (b.isFile = false → a.isFile = false) ∧
    (a.isFile = b.isFile → lowerStr (lastName a) ≤ lowerStr (lastName b)) := by
  have hA : a.path.dropLast ++ [lastName a] = a.path := by
    rw [lastName, List.getLastD_eq_getLast?, List.getLast?_eq_getLast _ ha,
      Option.getD_some]
    exact List.dropLast_append_getLast ha
  have hB : a.path.dropLast ++ [lastName b] = b.path := by
    rw [lastName, List.getLastD_eq_getLast?, List.getLast?_eq_getLast _ hb,
      Option.getD_some, hpar]
    exact List.dropLast_append_getLast hb
  have hcc : compareComponents a.isFile b.isFile a.path b.path =
      stepCmp (a.isFile, lastName a) (b.isFile, lastName b) := by
    rw [← hA, ← hB]
    exact compareComponents_sibling _ _ _ _ _
  have hng : stepCmp (a.isFile, lastName a) (b.isFile, lastName b) ≠ .gt := by
    rw [← hcc]
    simpa [entryLe, decide_eq_true_eq] using hle
  constructor
  · intro hbf
    by_contra haf
    have haf2 : a.isFile = true := by revert haf; cases a.isFile <;> simp
    exact hng (stepCmp_eq_gt.mpr (Or.inl ⟨haf2, hbf⟩))
  · intro hclass
    by_contra hlt
    push_neg at hlt
    exact hng (stepCmp_eq_gt.mpr (Or.inr ⟨hclass, hlt⟩))

theorem mergeF_eq_merge {α : Type} (le : α → α → Bool) :
    ∀ (fuel : Nat) (xs ys : List α), xs.length + ys.length ≤ fuel →
      mergeF le fuel xs ys = List.merge xs ys le := by
  intro fuel
  induction fuel with
  | zero =>
    intro xs ys h
    cases xs with
    | nil => rw [List.nil_merge]; rfl
    | cons x xs =>
      cases ys with
      | nil => rw [List.merge_right]; rfl
      | cons y ys => simp [List.length_cons] at h
  | succ fuel ih =>
    intro xs ys h
    cases xs with
    | nil => rw [List.nil_merge]; rfl
    | cons x xs =>
      cases ys with
      | nil => rw [List.merge_right]; rfl
      | cons y ys =>
        show (if le x y then x :: mergeF le fuel xs (y :: ys)
              else y :: mergeF le fuel (x :: xs) ys) = _
        rw [List.merge]
        by_cases hle : le x y = true
        · rw [if_pos hle, if_pos hle, ih xs (y :: ys) (by simp [List.length_cons] at h ⊢; omega)]
        · rw [if_neg hle, if_neg hle, ih (x :: xs) ys (by simp [List.length_cons] at h ⊢; omega)]

theorem mergeSortF_eq_mergeSort {α : Type} (le : α → α → Bool) :
    ∀ (fuel : Nat) (l : List α), l.length ≤ fuel →
      mergeSortF le fuel l = l.mergeSort le := by
  intro fuel
  induction fuel with
  | zero =>
    intro l h
    have hl : l = [] := List.eq_nil_of_length_eq_zero (Nat.le_zero.mp h)
    subst hl
    rw [List.mergeSort_nil]
    rfl
  | succ fuel ih =>
    intro l h
    match l with
    | [] => rw [List.mergeSort_nil]; rfl
    | [a] => rw [List.mergeSort_singleton]; rfl
    | a :: b :: xs =>
      show mergeF le _ _ _ = _
      rw [List.mergeSort]
      rw [List.splitInTwo_fst, List.splitInTwo_snd]
      simp only [List.length_cons] at h
      have hlt : ((a :: b :: xs).take (((a :: b :: xs).length + 1) / 2)).length ≤ fuel := by
        simp [List.length_take, List.length_cons]
        omega
      have hld : ((a :: b :: xs).drop (((a :: b :: xs).length + 1) / 2)).length ≤ fuel := by
        simp [List.length_drop, List.length_cons]
        omega
      rw [mergeF_eq_merge le _ _ _ (le_refl _), ih _ hlt, ih _ hld]

theorem sortBy_eq_mergeSort {α : Type} (le : α → α → Bool) (l : List α) :
    sortBy le l = l.mergeSort le :=
  mergeSortF_eq_mergeSort le l.length l (le_refl _)

theorem mem_updateVisibleEntriesGo_mergeSort (edit : Option EditState) :
    ∀ (project : Project) (m : List (Nat × List Nat)) (x : Nat × List Entry),
      x ∈ (updateVisibleEntriesGo edit project m).2 →
      ∃ l : List Entry, x.2 = l.mergeSort entryLe := by
  intro project
  induction project with
  | nil =>
    intro m x hx
    simp [updateVisibleEntriesGo] at hx
  | cons ws rest ih =>
    intro m x hx
    rcases ws with ⟨wid, snap⟩
    simp only [updateVisibleEntriesGo, List.mem_cons] at hx
    rcases hx with h | h
    · exact ⟨_, by rw [h]; exact sortBy_eq_mergeSort entryLe _⟩
    · exact ih _ x h

/-- Claim C1: every rebuilt root vector is sorted by the hierarchical
component-wise comparator (directories before files at the final component,
case-insensitive names within a class), so any two sibling entries under
the same parent are ordered directory-before-file and then by
case-insensitive name, and the flat vector is the pre-order flattening the
comparator induces. -/
theorem claim_C1_sort_invariant (project : Project) (st : PanelState)
    (newSel : Option (Nat × Nat)) (wid : Nat) (es : List Entry)
    (hmem : (wid, es) ∈ (updateVisibleEntries project st newSel).visible_entries) :
    es.Pairwise (fun a b => entryLe a b = true) ∧
    es.Pairwise (fun a b =>
      a.path ≠ [] → b.path ≠ [] → a.path.dropLast = b.path.dropLast →
      (b.isFile = false → a.isFile = false) ∧
      (a.isFile = b.isFile → lowerStr (lastName a) ≤ lowerStr (lastName b))) := by
  have hx : ∃ l : List Entry, ((wid, es) : Nat × List Entry).2 = l.mergeSort entryLe :=
    mem_updateVisibleEntriesGo_mergeSort st.edit_state project st.expanded_dir_ids _ hmem
  rcases hx with ⟨l, hl⟩
  simp only at hl
  have hp : es.Pairwise (fun a b => entryLe a b = true) := by
    rw [hl]
    exact List.sorted_mergeSort entryLe_trans entryLe_total l
  refine ⟨hp, hp.imp ?_⟩
  intro a b hab ha hb hpar
  exact entryLe_sibling hab ha hb hpar

theorem claim_C1_sort_invariant_witness :
    exSorted1.Pairwise (fun a b => entryLe a b = true) :=
  (claim_C1_sort_invariant exProject exStateEmpty none 10 exSorted1 (by decide)).1

/-! ### C3: at most one synthetic placeholder -/

theorem countP_beq_le_one {α : Type} (f : α → Nat) :
    ∀ {l : List α}, (l.map f).Nodup → ∀ (x : Nat),
      l.countP (fun a => f a == x) ≤ 1 := by
  intro l
  induction l with
  | nil => intro _ x; simp
  | cons a rest ih =>
    intro hnd x
    rw [List.map_cons, List.nodup_cons] at hnd
    rw [List.countP_cons]
    by_cases hax : f a = x
    · have hzero : rest.countP (fun b => f b == x) = 0 := by
        rw [List.countP_eq_zero]
        intro b hb hbe
        have hfb : f b ∈ List.map f rest := List.mem_map_of_mem f hb
        have hbx : f b = x := by simpa using hbe
        rw [hbx, ← hax] at hfb
        exact hnd.1 hfb
      simp [hzero, hax]
    · have : (f a == x) = false := by simpa using hax
      simpa [this] using ih hnd.2 x

theorem countSyntheticIn_buildVisibleGoF (isExp : Nat → Bool)
    (np : Option (Nat × Bool)) :
    ∀ (fuel : Nat) (l : List Entry),
      (buildVisibleGoF isExp np fuel l).countP (fun e => e.id == NEW_ENTRY_ID) ≤
        l.countP (fun e => e.id == NEW_ENTRY_ID) + anchorCount np l := by
  intro fuel
  induction fuel with
  | zero =>
    intro l
    cases l with
    | nil => simp [buildVisibleGoF]
    | cons e rest => simp [buildVisibleGoF]
  | succ fuel ih =>
    intro l
    cases l with
    | nil => simp [buildVisibleGoF]
    | cons e rest =>
      have htail := ih (if isExp e.id then rest else rest.dropWhile (descendsFrom e.path))
      have hsub : (if isExp e.id then rest
          else rest.dropWhile (descendsFrom e.path)).Sublist rest := by
        split
        · exact List.Sublist.refl rest
        · exact List.dropWhile_sublist _
      have hnew_tail := List.Sublist.countP_le (fun e => e.id == NEW_ENTRY_ID) hsub
      cases np with
      | none =>
        show List.countP _ ((e :: []) ++ buildVisibleGoF isExp none fuel _) ≤ _
        rw [List.countP_append, List.countP_cons, List.countP_nil]
        simp only [anchorCount] at htail ⊢
        rw [List.countP_cons]
        omega
      | some pb =>
        simp only [anchorCount] at htail ⊢
        have hanchor_tail := List.Sublist.countP_le (fun e => e.id == pb.1) hsub
        by_cases hid : pb.1 = e.id
        · show List.countP _ ((e :: (if pb.1 = e.id then [syntheticEntry e pb.2] else [])) ++
            buildVisibleGoF isExp (some pb) fuel _) ≤ _
          rw [if_pos hid, List.countP_append, List.countP_cons, List.countP_cons,
            List.countP_nil, List.countP_cons, List.countP_cons]
          have hsyn : (((syntheticEntry e pb.2).id == NEW_ENTRY_ID) : Bool) = true := by
            simp [syntheticEntry]
          have hpe : ((e.id == pb.1) : Bool) = true := by simp [hid]
          rw [hsyn, hpe]
          omega
        · show List.countP _ ((e :: (if pb.1 = e.id then [syntheticEntry e pb.2] else [])) ++
            buildVisibleGoF isExp (some pb) fuel _) ≤ _
          rw [if_neg hid, List.countP_append, List.countP_cons, List.countP_nil,
            List.countP_cons, List.countP_cons]
          have hpe : ((e.id == pb.1) : Bool) = false := by
            simp only [beq_eq_false_iff_ne, ne_eq]
            exact fun hc => hid hc.symm
          rw [hpe]
          omega

theorem countSyntheticIn_buildWorktree (edit : Option EditState) (wid : Nat)
    (expanded : List Nat) (snap : Snapshot)
    (hids : ∀ e ∈ snap.entries, e.id ≠ NEW_ENTRY_ID)
    (hnd : (snap.entries.map Entry.id).Nodup) :
    countSyntheticIn (buildWorktree edit wid expanded snap) ≤
      (if (newEntryAnchor edit wid).isSome then 1 else 0) := by
  rw [buildWorktree, countSyntheticIn, sortBy_eq_mergeSort,
    (List.mergeSort_perm _ entryLe).countP_eq]
  have hwalk := countSyntheticIn_buildVisibleGoF
    (fun i => expanded.contains i) (newEntryAnchor edit wid)
    snap.entries.length snap.entries
  have hzero : snap.entries.countP (fun e => e.id == NEW_ENTRY_ID) = 0 := by
    rw [List.countP_eq_zero]
    intro e he
    simpa using hids e he
  rw [buildVisibleGo]
  cases hanchor : newEntryAnchor edit wid with
  | none =>
    rw [hanchor] at hwalk
    simp only [anchorCount] at hwalk
    simp only [Option.isSome_none, Bool.false_eq_true, if_false]
    omega
  | some pb =>
    rw [hanchor] at hwalk
    simp only [anchorCount] at hwalk
    have hone := countP_beq_le_one Entry.id hnd pb.1
    simp only [Option.isSome_some, if_true]
    omega

theorem countSynthetic_updateVisibleEntriesGo (edit : Option EditState) :
    ∀ (project : Project) (m : List (Nat × List Nat)),
      (∀ ws ∈ project, ∀ e ∈ (ws.2 : Snapshot).entries, e.id ≠ NEW_ENTRY_ID) →
      (∀ ws ∈ project, ((ws.2 : Snapshot).entries.map Entry.id).Nodup) →
      countSynthetic (updateVisibleEntriesGo edit project m).2 ≤
        project.countP (fun ws => (newEntryAnchor edit ws.1).isSome) := by
  intro project
  induction project with
  | nil => intro m _ _; simp [updateVisibleEntriesGo, countSynthetic]
  | cons ws rest ih =>
    intro m h1 h2
    rcases ws with ⟨wid, snap⟩
    have hhd := countSyntheticIn_buildWorktree edit wid
      (updateExpandedForWorktree m wid snap).2 snap
      (h1 (wid, snap) (List.mem_cons_self _ _))
      (h2 (wid, snap) (List.mem_cons_self _ _))
    have htl := ih (updateExpandedForWorktree m wid snap).1
      (fun w hw => h1 w (List.mem_cons_of_mem _ hw))
      (fun w hw => h2 w (List.mem_cons_of_mem _ hw))
    have hsplit : (updateVisibleEntriesGo edit ((wid, snap) :: rest) m).2 =
        (wid, buildWorktree edit wid (updateExpandedForWorktree m wid snap).2 snap) ::
        (updateVisibleEntriesGo edit rest (updateExpandedForWorktree m wid snap).1).2 := rfl
    have hcons : countSynthetic ((wid, buildWorktree edit wid
        (updateExpandedForWorktree m wid snap).2 snap) ::
        (updateVisibleEntriesGo edit rest (updateExpandedForWorktree m wid snap).1).2) =
        countSyntheticIn (buildWorktree edit wid
          (updateExpandedForWorktree m wid snap).2 snap) +
        countSynthetic (updateVisibleEntriesGo edit rest
          (updateExpandedForWorktree m wid snap).1).2 := by
      simp [countSynthetic]
    have hrhs : ((wid, snap) :: rest).countP
        (fun ws => (newEntryAnchor edit ws.1).isSome) =
        rest.countP (fun ws => (newEntryAnchor edit ws.1).isSome) +
          (if (newEntryAnchor edit wid).isSome then 1 else 0) := by
      rw [List.countP_cons]
    rw [hsplit, hcons, hrhs]
    by_cases hs : (newEntryAnchor edit wid).isSome
    · rw [if_pos hs] at hhd ⊢
      omega
    · rw [if_neg hs] at hhd ⊢
      omega

theorem countP_anchor_le_one (edit : Option EditState) (project : Project)
    (h3 : (project.map Prod.fst).Nodup) :
    project.countP (fun ws => (newEntryAnchor edit ws.1).isSome) ≤ 1 := by
  cases edit with
  | none =>
    have : project.countP (fun ws => (newEntryAnchor none ws.1).isSome) = 0 := by
      rw [List.countP_eq_zero]
      intro ws _
      simp [newEntryAnchor]
    omega
  | some es =>
    have hcongr : project.countP (fun ws => (newEntryAnchor (some es) ws.1).isSome) ≤
        project.countP (fun ws => ws.1 == es.worktree_id) := by
      apply List.countP_mono_left
      intro ws _ hws
      by_cases hw : es.worktree_id = ws.1
      · simp [hw]
      · exfalso
        simp only [newEntryAnchor] at hws
        simp [hw] at hws
    have hle := countP_beq_le_one (fun ws : Nat × Snapshot => ws.1)
      (by simpa using h3) es.worktree_id
    omega

/-- Claim C3: whatever the panel state (hence after any sequence of
new-entry, rename, cancel and confirm operations, which only ever produce
one optional edit session), the rebuilt visible projection contains at most
one synthetic sentinel-id entry across all roots, provided the external
snapshots are well-formed (distinct real ids, none equal to the sentinel,
and distinct worktree ids). -/
theorem claim_C3_single_placeholder (project : Project) (st : PanelState)
    (newSel : Option (Nat × Nat))
    (h1 : ∀ ws ∈ project, ∀ e ∈ (ws.2 : Snapshot).entries, e.id ≠ NEW_ENTRY_ID)
    (h2 : ∀ ws ∈ project, ((ws.2 : Snapshot).entries.map Entry.id).Nodup)
    (h3 : (project.map Prod.fst).Nodup) :
    countSynthetic (updateVisibleEntries project st newSel).visible_entries ≤ 1 := by
  have hgo := countSynthetic_updateVisibleEntriesGo st.edit_state project
    st.expanded_dir_ids h1 h2
  have hanch := countP_anchor_le_one st.edit_state project h3
  have : (updateVisibleEntries project st newSel).visible_entries =
      (updateVisibleEntriesGo st.edit_state project st.expanded_dir_ids).2 := rfl
  rw [this]
  omega

theorem claim_C3_single_placeholder_witness :
    countSynthetic (updateVisibleEntries exProject
      { exStateEmpty with
        expanded_dir_ids := [(10, [1, 3])],
        edit_state := some ⟨10, 3, true, false, none⟩ } none).visible_entries ≤ 1 :=
  claim_C3_single_placeholder exProject
    { exStateEmpty with
      expanded_dir_ids := [(10, [1, 3])],
      edit_state := some ⟨10, 3, true, false, none⟩ } none
    (by decide) (by decide) (by decide)

/-! ### Index resolution and the flattened projection -/

theorem lenSumTake_zero (ve : List (Nat × List Entry)) : lenSumTake ve 0 = 0 := by
  simp [lenSumTake, totalLen]

theorem lenSumTake_succ (wid : Nat) (es : List Entry)
    (rest : List (Nat × List Entry)) (w : Nat) :
    lenSumTake ((wid, es) :: rest) (w + 1) = es.length + lenSumTake rest w := by
  simp [lenSumTake, totalLen]

theorem totalLen_cons (wid : Nat) (es : List Entry)
    (rest : List (Nat × List Entry)) :
    totalLen ((wid, es) :: rest) = es.length + totalLen rest := by
  simp [totalLen]

theorem flatVE_length : ∀ (ve : List (Nat × List Entry)),
    (flatVE ve).length = totalLen ve := by
  intro ve
  induction ve with
  | nil => simp [flatVE, totalLen]
  | cons p rest ih =>
    rcases p with ⟨wid, es⟩
    simp [flatVE, totalLen_cons, ih]

theorem flatVE_getElem : ∀ (ve : List (Nat × List Entry)) (w : Nat)
    (wid : Nat) (entries : List Entry) (j : Nat),
    ve[w]? = some (wid, entries) → j < entries.length →
    (flatVE ve)[lenSumTake ve w + j]? = (entries[j]?).map (fun ent => (wid, ent)) := by
  intro ve
  induction ve with
  | nil => intro w wid entries j h _; simp at h
  | cons p rest ih =>
    rcases p with ⟨wid0, es0⟩
    intro w wid entries j h hj
    cases w with
    | zero =>
      rw [List.getElem?_cons_zero] at h
      have h1 : wid0 = wid := by injection h with h; exact congrArg Prod.fst h
      have h2 : es0 = entries := by injection h with h; exact congrArg Prod.snd h
      rw [lenSumTake_zero, Nat.zero_add]
      show (List.map (fun e => (wid0, e)) es0 ++ flatVE rest)[j]? =
        (entries[j]?).map (fun ent => (wid, ent))
      rw [h2, h1]
      rw [List.getElem?_append_left (by simpa using hj), List.getElem?_map]
    | succ w =>
      rw [List.getElem?_cons_succ] at h
      rw [lenSumTake_succ]
      show (List.map (fun e => (wid0, e)) es0 ++ flatVE rest)[es0.length + lenSumTake rest w + j]? = _
      rw [List.getElem?_append_right (by simp; omega)]
      have : es0.length + lenSumTake rest w + j - (List.map (fun e => (wid0, e)) es0).length =
          lenSumTake rest w + j := by simp; omega
      rw [this]
      exact ih w wid entries j h hj

theorem findEntryIdx_spec (eid : Nat) : ∀ (l : List Entry) (i : Nat),
    findEntryIdx eid l = some i →
    ∃ ent, l[i]? = some ent ∧ ent.id = eid ∧ i < l.length := by
  intro l
  induction l with
  | nil => intro i h; exact absurd h (by simp [findEntryIdx])
  | cons e rest ih =>
    intro i h
    simp only [findEntryIdx] at h
    by_cases he : e.id = eid
    · rw [if_pos he] at h
      injection h with h
      subst h
      exact ⟨e, by simp, he, by simp⟩
    · rw [if_neg he] at h
      cases hf : findEntryIdx eid rest with
      | none => rw [hf] at h; exact Option.noConfusion h
      | some j =>
        rw [hf] at h
        simp only [Option.map_some'] at h
        injection h with h
        subst h
        obtain ⟨ent, hg, hid, hlt⟩ := ih j hf
        exact ⟨ent, by simpa using hg, hid, by simp; omega⟩

theorem indexForSelectionGo_shift (sel : Selection) :
    ∀ (ve : List (Nat × List Entry)) (wix acc : Nat),
      indexForSelectionGo sel ve wix acc =
        (indexForSelectionGo sel ve 0 0).map
          (fun t => (t.1 + wix, t.2.1, t.2.2 + acc)) := by
  intro ve
  induction ve with
  | nil => intro wix acc; rfl
  | cons p rest ih =>
    rcases p with ⟨wid, entries⟩
    intro wix acc
    simp only [indexForSelectionGo]
    by_cases hw : wid = sel.worktree_id
    · rw [if_pos hw, if_pos hw]
      cases hf : findEntryIdx sel.entry_id entries with
      | none => rfl
      | some i =>
        simp only [Option.map_some', Option.some.injEq, Prod.mk.injEq]
        exact ⟨by omega, trivial, by omega⟩
    · rw [if_neg hw, if_neg hw]
      rw [ih (wix + 1) (acc + entries.length), ih (0 + 1) (0 + entries.length)]
      cases hg : indexForSelectionGo sel rest 0 0 with
      | none => rfl
      | some t =>
        simp only [Option.map_some', Option.some.injEq, Prod.mk.injEq]
        exact ⟨by omega, trivial, by omega⟩

theorem indexForSelection_spec (sel : Selection) :
    ∀ (ve : List (Nat × List Entry)) (w e f : Nat),
      indexForSelection ve sel = some (w, e, f) →
      ∃ wid entries ent,
        ve[w]? = some (wid, entries) ∧ wid = sel.worktree_id ∧
        entries[e]? = some ent ∧ ent.id = sel.entry_id ∧
        e < entries.length ∧ f = lenSumTake ve w + e := by
  intro ve
  induction ve with
  | nil => intro w e f h; exact absurd h (by simp [indexForSelection, indexForSelectionGo])
  | cons p rest ih =>
    rcases p with ⟨wid0, es0⟩
    intro w e f h
    rw [indexForSelection] at h
    simp only [indexForSelectionGo] at h
    by_cases hw : wid0 = sel.worktree_id
    · rw [if_pos hw] at h
      cases hf : findEntryIdx sel.entry_id es0 with
      | none => rw [hf] at h; exact Option.noConfusion h
      | some i =>
        rw [hf] at h
        simp only [Option.map_some', Option.some.injEq, Prod.mk.injEq] at h
        obtain ⟨hw0, hie, hif⟩ := h
        obtain ⟨ent, hg, hid, hlt⟩ := findEntryIdx_spec sel.entry_id es0 i hf
        subst hw0
        refine ⟨wid0, es0, ent, by simp, hw, ?_, hid, ?_, ?_⟩
        · rw [hie] at hg; exact hg
        · omega
        · rw [lenSumTake_zero]; omega
    · rw [if_neg hw] at h
      rw [indexForSelectionGo_shift sel rest (0 + 1) (0 + es0.length)] at h
      cases hg : indexForSelectionGo sel rest 0 0 with
      | none => rw [hg] at h; exact Option.noConfusion h
      | some t =>
        rw [hg] at h
        simp only [Option.map_some'] at h
        injection h with h
        rcases t with ⟨w1, e1, f1⟩
        have hrest : indexForSelection rest sel = some (w1, e1, f1) := hg
        obtain ⟨wid, entries, ent, hgw, hws, hge, hid, hltn, hflt⟩ :=
          ih w1 e1 f1 hrest
        have hww : w = w1 + (0 + 1) := by
          have := congrArg Prod.fst h
          simpa using this.symm
        have hee : e = e1 := by
          have := congrArg (fun q : Nat × Nat × Nat => q.2.1) h
          simpa using this.symm
        have hff : f = f1 + (0 + es0.length) := by
          have := congrArg (fun q : Nat × Nat × Nat => q.2.2) h
          simpa using this.symm
        subst hee
        refine ⟨wid, entries, ent, ?_, hws, hge, hid, hltn, ?_⟩
        · rw [hww]
          simpa using hgw
        · rw [hww, hff, hflt]
          have : w1 + (0 + 1) = w1 + 1 := by omega
          rw [this, lenSumTake_succ]
          omega

theorem totalLen_zero_flatVE (ve : List (Nat × List Entry))
    (h : totalLen ve = 0) : flatVE ve = [] := by
  have := flatVE_length ve
  apply List.eq_nil_of_length_eq_zero
  omega

theorem forEachGo_full (project : Project) :
    ∀ (ve : List (Nat × List Entry)),
      (∀ p ∈ ve, (findWorktree project p.1).isSome) →
      ∀ (ix : Nat),
        forEachGo project ve ix 0 (ix + totalLen ve) =
          (flatVE ve).map (fun q => q.2.id) := by
  intro ve
  induction ve with
  | nil => intro _ ix; rfl
  | cons p rest ih =>
    rcases p with ⟨wid, entries⟩
    intro hlook ix
    have hlook2 : ∀ p ∈ rest, (findWorktree project p.1).isSome :=
      fun p hp => hlook p (List.mem_cons_of_mem _ hp)
    rw [totalLen_cons]
    simp only [forEachGo]
    by_cases hT : entries.length + totalLen rest = 0
    · rw [if_pos (by omega)]
      have hE : entries = [] := List.eq_nil_of_length_eq_zero (by omega)
      have hR : flatVE rest = [] := totalLen_zero_flatVE rest (by omega)
      subst hE
      show ([] : List Nat) = (flatVE ((wid, []) :: rest)).map (fun q => q.2.id)
      simp [flatVE, hR]
    · rw [if_neg (by omega)]
      by_cases hlen : entries.length = 0
      · have hE : entries = [] := List.eq_nil_of_length_eq_zero hlen
        subst hE
        by_cases hix : ix = 0
        · subst hix
          rw [if_pos (by simp)]
          have := ih hlook2 0
          simp only [Nat.zero_add, Nat.add_zero, List.length_nil] at this ⊢
          rw [this]
          show (flatVE rest).map _ = (flatVE ((wid, []) :: rest)).map _
          simp [flatVE]
        · rw [if_neg (by omega)]
          have hmin : min (ix + (List.length ([] : List Entry) + totalLen rest))
              (ix + List.length ([] : List Entry)) = ix := by
            simp
          rw [hmin]
          have hrec := ih hlook2 ix
          have harith : ix + (List.length ([] : List Entry) + totalLen rest) =
              ix + totalLen rest := by simp
          rw [harith, hrec]
          cases hfwv : findWorktree project wid <;>
            simp [flatVE, List.take_nil]
      · rw [if_neg (by omega)]
        have hmin : min (ix + (entries.length + totalLen rest)) (ix + entries.length) =
            ix + entries.length := Nat.min_eq_right (by omega)
        rw [hmin]
        have hfw := hlook (wid, entries) (List.mem_cons_self _ _)
        cases hfwv : findWorktree project wid with
        | none => rw [hfwv] at hfw; simp at hfw
        | some s =>
          have h1 : ix + entries.length - ix = entries.length := by omega
          have h2 : 0 - ix = 0 := by omega
          rw [h1, h2, List.take_length, List.drop_zero]
          have harith : ix + (entries.length + totalLen rest) =
              (ix + entries.length) + totalLen rest := by omega
          rw [harith, ih hlook2 (ix + entries.length)]
          show entries.map _ ++ (flatVE rest).map _ =
            (flatVE ((wid, entries) :: rest)).map _
          simp [flatVE, List.map_map, Function.comp]

/-- Claim C5: resolving a selection through `index_for_selection` and
looking the returned flat index up in the full-range enumeration of
`for_each_visible_entry` yields the same entry id. -/
theorem claim_C5_selection_roundtrip (project : Project) (st : PanelState)
    (sel : Selection) (w e f : Nat)
    (hsel : indexForSelection st.visible_entries sel = some (w, e, f))
    (hlook : ∀ p ∈ st.visible_entries, (findWorktree project p.1).isSome) :
    f < totalLen st.visible_entries ∧
    (forEachVisibleEntryIds project st 0 (totalLen st.visible_entries))[f]? =
      some sel.entry_id := by
  obtain ⟨wid, entries, ent, hgw, hws, hge, hid, hlt, hf⟩ :=
    indexForSelection_spec sel st.visible_entries w e f hsel
  have hflat := flatVE_getElem st.visible_entries w wid entries e hgw hlt
  rw [hge] at hflat
  have hfl : (flatVE st.visible_entries)[f]? = some (wid, ent) := by
    rw [hf]
    simpa using hflat
  have hlen : f < (flatVE st.visible_entries).length := by
    by_contra hc
    rw [List.getElem?_eq_none (by omega)] at hfl
    exact Option.noConfusion hfl
  constructor
  · rw [← flatVE_length]; exact hlen
  · rw [forEachVisibleEntryIds]
    have hfull := forEachGo_full project st.visible_entries hlook 0
    rw [Nat.zero_add] at hfull
    rw [hfull, List.getElem?_map, hfl]
    simp [hid]

theorem claim_C5_selection_roundtrip_witness :
    (1 : Nat) < totalLen [(10, exSorted1), (20, [⟨7, [], false⟩])] ∧
    (forEachVisibleEntryIds exProject
      { exStateEmpty with
        visible_entries := [(10, exSorted1), (20, [⟨7, [], false⟩])] }
      0 (totalLen [(10, exSorted1), (20, [⟨7, [], false⟩])]))[1]? = some 2 :=
  claim_C5_selection_roundtrip exProject
    { exStateEmpty with
      visible_entries := [(10, exSorted1), (20, [⟨7, [], false⟩])] }
    ⟨10, 2⟩ 0 1 1 (by decide) (by decide)

/-! ### C10, C6: select_prev / select_next -/

theorem getElem?_some_lt {α : Type} {l : List α} {n : Nat} {a : α}
    (h : l[n]? = some a) : n < l.length := by
  by_contra hc
  rw [List.getElem?_eq_none_iff.mpr (by omega)] at h
  exact Option.noConfusion h

theorem lenSumTake_succ_getElem : ∀ (ve : List (Nat × List Entry)) (w : Nat)
    (wid : Nat) (entries : List Entry), ve[w]? = some (wid, entries) →
    lenSumTake ve (w + 1) = lenSumTake ve w + entries.length := by
  intro ve
  induction ve with
  | nil => intro w wid entries h; simp at h
  | cons p rest ih =>
    rcases p with ⟨wid0, es0⟩
    intro w wid entries h
    cases w with
    | zero =>
      rw [List.getElem?_cons_zero] at h
      have h2 : es0 = entries := by injection h with h; exact congrArg Prod.snd h
      rw [lenSumTake_succ, lenSumTake_zero, lenSumTake_zero, h2]
      omega
    | succ w =>
      rw [List.getElem?_cons_succ] at h
      rw [lenSumTake_succ, lenSumTake_succ, ih w wid entries h]
      omega

theorem lenSumTake_of_ge (ve : List (Nat × List Entry)) (w : Nat)
    (h : ve.length ≤ w) : lenSumTake ve w = totalLen ve := by
  rw [lenSumTake, List.take_of_length_le h]

theorem lenSumTake_eq_zero {ve : List (Nat × List Entry)} {w : Nat}
    (hne : ∀ p ∈ ve, (p.2 : List Entry) ≠ []) (hw : w < ve.length)
    (h : lenSumTake ve w = 0) : w = 0 := by
  cases ve with
  | nil => simp at hw
  | cons p rest =>
    rcases p with ⟨wid0, es0⟩
    cases w with
    | zero => rfl
    | succ w =>
      rw [lenSumTake_succ] at h
      have hne0 : es0 ≠ [] := hne (wid0, es0) (List.mem_cons_self _ _)
      have hpos : 0 < es0.length := List.length_pos.mpr hne0
      omega

/-- Claim C10 is false on the code: with a preceding root whose entry list
is empty (a root whose tree has not produced a root entry yet) and the
selection on the first entry of the following root, `select_prev` computes
`visible_entries[0].1.len() - 1` with `len() = 0`, underflowing the `usize`
subtraction and indexing out of bounds: a panic, made explicit here as
`Except.error`. -/
theorem claim_C10_select_prev_panic :
    selectPrev []
      { visible_entries := [(1, []), (2, [⟨7, [], false⟩])],
        expanded_dir_ids := [], selection := some ⟨2, 7⟩,
        edit_state := none, clipboard_entry := none } =
      Except.error PanelPanic.lenUnderflow := by
  decide

/-- Claim C6 as stated is false on the code: with a middle root whose entry
list is empty, the selection on the last entry of the preceding root, and a
later root still holding entries, `select_next` leaves the selection
unchanged even though the flattened projection has a next entry (flat index
1 of 2), so the selection does not move one position in the flattened
projection. -/
theorem claim_C6_counterexample :
    indexForSelection
        [(1, [⟨11, [], false⟩]), (2, []), (3, [⟨33, [], false⟩])]
        ⟨1, 11⟩ = some (0, 0, 0) ∧
    (flatVE [(1, [⟨11, [], false⟩]), (2, []), (3, [⟨33, [], false⟩])]).length = 2 ∧
    (flatVE [(1, [⟨11, [], false⟩]), (2, []), (3, [⟨33, [], false⟩])])[1]? =
      some (3, ⟨33, [], false⟩) ∧
    selectNext []
      { visible_entries := [(1, [⟨11, [], false⟩]), (2, []), (3, [⟨33, [], false⟩])],
        expanded_dir_ids := [], selection := some ⟨1, 11⟩,
        edit_state := none, clipboard_entry := none } =
      { visible_entries := [(1, [⟨11, [], false⟩]), (2, []), (3, [⟨33, [], false⟩])],
        expanded_dir_ids := [], selection := some ⟨1, 11⟩,
        edit_state := none, clipboard_entry := none } := by
  decide

/-- Claim C6 (amended): provided every root in the projection contributes a
nonempty entry vector, `select_next` and `select_prev` with no current
selection select the first root's root entry; with a resolvable selection
they move exactly one position in the flattened projection (crossing root
boundaries to the first entry of the next root / the last entry of the
previous root); and at the absolute last (for next) or first (for prev)
entry they leave the state unchanged. Without the nonemptiness premise the
claim fails (see the counterexample) and `select_prev` can panic (C10). -/
theorem claim_C6_select_next_prev (project : Project) (st : PanelState)
    (hne : ∀ p ∈ st.visible_entries, (p.2 : List Entry) ≠ []) :
    (∀ sel w e f, st.selection = some sel →
      indexForSelection st.visible_entries sel = some (w, e, f) →
      f < (flatVE st.visible_entries).length ∧
      (∀ q, (flatVE st.visible_entries)[f + 1]? = some q →
        selectNext project st =
          { st with selection := some ⟨q.1, q.2.id⟩ }) ∧
      ((flatVE st.visible_entries)[f + 1]? = none → selectNext project st = st) ∧
      (∀ q, 0 < f → (flatVE st.visible_entries)[f - 1]? = some q →
        selectPrev project st =
          .ok { st with selection := some ⟨q.1, q.2.id⟩ }) ∧
      (f = 0 → selectPrev project st = .ok st)) ∧
    (st.selection = none →
      selectNext project st = selectFirst project st ∧
      selectPrev project st = .ok (selectFirst project st) ∧
      (∀ wid es snap root, st.visible_entries.head? = some (wid, es) →
        findWorktree project wid = some snap → rootEntry snap = some root →
        (selectFirst project st).selection =
          some ⟨wid, root.id⟩)) := by
  constructor
  · intro sel w e f hsel hidx
    obtain ⟨wid, entries, ent, hgw, hws, hge, hid, hlt, hf⟩ :=
      indexForSelection_spec sel st.visible_entries w e f hidx
    have hwlt : w < st.visible_entries.length := getElem?_some_lt hgw
    have hflat_we := flatVE_getElem st.visible_entries w wid entries e hgw hlt
    rw [hge] at hflat_we
    have hfl : (flatVE st.visible_entries)[f]? = some (wid, ent) := by
      rw [hf]
      simpa using hflat_we
    have hlenf : f < (flatVE st.visible_entries).length := getElem?_some_lt hfl
    refine ⟨hlenf, ?_, ?_, ?_, ?_⟩
    · -- select_next moves to the flat successor when it exists
      intro q hq
      by_cases hcase : e + 1 < entries.length
      · have hge2 : entries[e + 1]? = some entries[e + 1] :=
          List.getElem?_eq_getElem hcase
        have hflat2 := flatVE_getElem st.visible_entries w wid entries (e + 1) hgw hcase
        rw [hge2] at hflat2
        have hidxeq : f + 1 = lenSumTake st.visible_entries w + (e + 1) := by omega
        rw [hidxeq, hflat2] at hq
        have hqe : q = (wid, entries[e + 1]) := by
          injection hq with hq
          exact hq.symm
        subst hqe
        simp only [selectNext, hsel, hidx, Option.getD_some, hgw, hcase,
          if_true, hge2]
      · have hEq : e + 1 = entries.length := by omega
        cases hgw2 : st.visible_entries[w + 1]? with
        | none =>
          exfalso
          have hge_len : st.visible_entries.length ≤ w + 1 :=
            List.getElem?_eq_none_iff.mp hgw2
          have hfe : f + 1 = totalLen st.visible_entries := by
            have h1 := lenSumTake_succ_getElem st.visible_entries w wid entries hgw
            have h2 := lenSumTake_of_ge st.visible_entries (w + 1) hge_len
            omega
          rw [hfe, List.getElem?_eq_none_iff.mpr (by rw [flatVE_length])] at hq
          exact Option.noConfusion hq
        | some p2 =>
          rcases p2 with ⟨wid2, entries2⟩
          have hne2 : entries2 ≠ [] :=
            hne (wid2, entries2) (List.getElem?_mem hgw2)
          have hlen2 : 0 < entries2.length := List.length_pos.mpr hne2
          have hge0 : entries2[0]? = some entries2[0] :=
            List.getElem?_eq_getElem hlen2
          have hflat2 := flatVE_getElem st.visible_entries (w + 1) wid2 entries2 0 hgw2 hlen2
          rw [hge0] at hflat2
          have hidxeq : f + 1 = lenSumTake st.visible_entries (w + 1) + 0 := by
            have h1 := lenSumTake_succ_getElem st.visible_entries w wid entries hgw
            omega
          rw [hidxeq, hflat2] at hq
          have hqe : q = (wid2, entries2[0]) := by
            injection hq with hq
            exact hq.symm
          subst hqe
          simp only [selectNext, hsel, hidx, Option.getD_some, hgw,
            if_neg hcase, hgw2, hge0]
    · -- select_next is the identity at the absolute last entry
      intro hq
      by_cases hcase : e + 1 < entries.length
      · exfalso
        have hge2 : entries[e + 1]? = some entries[e + 1] :=
          List.getElem?_eq_getElem hcase
        have hflat2 := flatVE_getElem st.visible_entries w wid entries (e + 1) hgw hcase
        rw [hge2] at hflat2
        have hidxeq : f + 1 = lenSumTake st.visible_entries w + (e + 1) := by omega
        rw [hidxeq, hflat2] at hq
        exact Option.noConfusion hq
      · cases hgw2 : st.visible_entries[w + 1]? with
        | none =>
          simp only [selectNext, hsel, hidx, Option.getD_some, hgw,
            if_neg hcase, hgw2]
        | some p2 =>
          exfalso
          rcases p2 with ⟨wid2, entries2⟩
          have hne2 : entries2 ≠ [] :=
            hne (wid2, entries2) (List.getElem?_mem hgw2)
          have hlen2 : 0 < entries2.length := List.length_pos.mpr hne2
          have hge0 : entries2[0]? = some entries2[0] :=
            List.getElem?_eq_getElem hlen2
          have hflat2 := flatVE_getElem st.visible_entries (w + 1) wid2 entries2 0 hgw2 hlen2
          rw [hge0] at hflat2
          have hidxeq : f + 1 = lenSumTake st.visible_entries (w + 1) + 0 := by
            have h1 := lenSumTake_succ_getElem st.visible_entries w wid entries hgw
            omega
          rw [hidxeq, hflat2] at hq
          exact Option.noConfusion hq
    · -- select_prev moves to the flat predecessor when not at the start
      intro q hposf hq
      by_cases he : 0 < e
      · have hem1 : e - 1 < entries.length := by omega
        have hgem : entries[e - 1]? = some entries[e - 1] :=
          List.getElem?_eq_getElem hem1
        have hflat2 := flatVE_getElem st.visible_entries w wid entries (e - 1) hgw hem1
        rw [hgem] at hflat2
        have hidxeq : f - 1 = lenSumTake st.visible_entries w + (e - 1) := by omega
        rw [hidxeq, hflat2] at hq
        have hqe : q = (wid, entries[e - 1]) := by
          injection hq with hq
          exact hq.symm
        subst hqe
        simp only [selectPrev, hsel, hidx, Option.getD_some, if_pos he,
          hgw, hgem]
      · have he0 : e = 0 := by omega
        subst he0
        have hlstpos : 0 < lenSumTake st.visible_entries w := by omega
        have hwpos : 0 < w := by
          by_contra hc
          have hw0 : w = 0 := by omega
          rw [hw0, lenSumTake_zero] at hlstpos
          omega
        have hw1 : w - 1 < st.visible_entries.length := by omega
        cases hgw2 : st.visible_entries[w - 1]? with
        | none =>
          exfalso
          have hcontra := List.getElem?_eq_none_iff.mp hgw2
          omega
        | some p2 =>
          rcases p2 with ⟨wid2, entries2⟩
          have hne2 : entries2 ≠ [] :=
            hne (wid2, entries2) (List.getElem?_mem hgw2)
          have hlen2 : 0 < entries2.length := List.length_pos.mpr hne2
          have hgem : entries2[entries2.length - 1]? =
              some entries2[entries2.length - 1] :=
            List.getElem?_eq_getElem (by omega)
          have hflat2 := flatVE_getElem st.visible_entries (w - 1) wid2 entries2
            (entries2.length - 1) hgw2 (by omega)
          rw [hgem] at hflat2
          have hlst : lenSumTake st.visible_entries w =
              lenSumTake st.visible_entries (w - 1) + entries2.length := by
            have h1 := lenSumTake_succ_getElem st.visible_entries (w - 1) wid2 entries2 hgw2
            have h2 : w - 1 + 1 = w := by omega
            rw [h2] at h1
            exact h1
          have hidxeq : f - 1 =
              lenSumTake st.visible_entries (w - 1) + (entries2.length - 1) := by
            omega
          rw [hidxeq, hflat2] at hq
          have hqe : q = (wid2, entries2[entries2.length - 1]) := by
            injection hq with hq
            exact hq.symm
          subst hqe
          simp only [selectPrev, hsel, hidx, Option.getD_some,
            if_neg (by omega : ¬ (0 : Nat) < 0), if_pos hwpos, hgw2,
            if_neg (by omega : ¬ entries2.length = 0), hgem]
    · -- select_prev is the identity at the absolute first entry
      intro hf0
      have he0 : e = 0 := by omega
      have hlst0 : lenSumTake st.visible_entries w = 0 := by omega
      have hw0 : w = 0 := lenSumTake_eq_zero hne hwlt hlst0
      subst he0
      subst hw0
      simp only [selectPrev, hsel, hidx, Option.getD_some,
        if_neg (by omega : ¬ (0 : Nat) < 0)]
  · intro hnone
    refine ⟨by simp [selectNext, hnone], by simp [selectPrev, hnone], ?_⟩
    intro wid es snap root hhead hfw hroot
    simp only [selectFirst, hhead, hfw, hroot]

theorem claim_C6_select_next_prev_witness :
    selectNext exProject
      { visible_entries := [(10, exSorted1), (20, [⟨7, [], false⟩])],
        expanded_dir_ids := [], selection := some ⟨10, 1⟩,
        edit_state := none, clipboard_entry := none } =
      { visible_entries := [(10, exSorted1), (20, [⟨7, [], false⟩])],
        expanded_dir_ids := [], selection := some ⟨10, 2⟩,
        edit_state := none, clipboard_entry := none } ∧
    selectPrev exProject
      { visible_entries := [(10, exSorted1), (20, [⟨7, [], false⟩])],
        expanded_dir_ids := [], selection := some ⟨10, 1⟩,
        edit_state := none, clipboard_entry := none } =
      .ok { visible_entries := [(10, exSorted1), (20, [⟨7, [], false⟩])],
            expanded_dir_ids := [], selection := some ⟨10, 1⟩,
            edit_state := none, clipboard_entry := none } := by
  have h := claim_C6_select_next_prev exProject
    { visible_entries := [(10, exSorted1), (20, [⟨7, [], false⟩])],
      expanded_dir_ids := [], selection := some ⟨10, 1⟩,
      edit_state := none, clipboard_entry := none } (by decide)
  have hres := h.1 ⟨10, 1⟩ 0 0 0 rfl (by decide)
  exact ⟨hres.2.1 (10, ⟨2, [".git"], false⟩) (by decide), hres.2.2.2.2 rfl⟩

/-! ### Claim C2: conflict rejection in `confirm_edit` -/

/-- Claim C2 counterexample: submitting a conflicting name for a new entry
issues no external call, but the selection does not stay unchanged —
`confirm_edit` retargets it to the sentinel placeholder id before the
conflict check runs. -/
theorem claim_C2_counterexample :
    (confirmEdit exProject "b" exStateC2).2 = none ∧
      (confirmEdit exProject "b" exStateC2).1.selection ≠ exStateC2.selection := by
  decide

/-- Claim C2 (amended): when the typed filename collides with an existing
path, `confirm_edit` issues no external operation and leaves the
projection, the expansion table and the edit session untouched; the
selection is untouched for a rename session, but for a new-entry session it
has already been retargeted to the sentinel placeholder id. -/
theorem claim_C2_conflict_rejection (project : Project) (filename : String)
    (st : PanelState) (es : EditState) (snap : Snapshot) (entry : Entry)
    (hes : st.edit_state = some es)
    (hfw : findWorktree project es.worktree_id = some snap)
    (hent : entryForId snap es.entry_id = some entry)
    (hconflict :
      (entryForPath snap
          (cond es.is_new_entry entry.path entry.path.dropLast ++
            pathComponents filename)).isSome = true) :
    (confirmEdit project filename st).2 = none ∧
      (confirmEdit project filename st).1.visible_entries = st.visible_entries ∧
      (confirmEdit project filename st).1.expanded_dir_ids = st.expanded_dir_ids ∧
      (confirmEdit project filename st).1.edit_state = st.edit_state ∧
      (confirmEdit project filename st).1.selection =
        cond es.is_new_entry
          (some { worktree_id := es.worktree_id, entry_id := NEW_ENTRY_ID })
          st.selection := by
  cases hni : es.is_new_entry with
  | true =>
    rw [hni, Bool.cond_true] at hconflict
    simp only [confirmEdit, hes, hfw, hent, hni, hconflict, eq_self_iff_true,
      if_true, Bool.cond_true]
    exact ⟨trivial, trivial, trivial, trivial, trivial⟩
  | false =>
    rw [hni, Bool.cond_false] at hconflict
    simp only [confirmEdit, hes, hfw, hent, hni, hconflict, eq_self_iff_true,
      Bool.false_eq_true, if_false, if_true, Bool.cond_false]
    exact ⟨trivial, trivial, trivial, trivial, trivial⟩

/-- Claim C2 witness: the amended conflict-rejection theorem applied to the
concrete colliding new-entry session. -/
theorem claim_C2_conflict_rejection_witness :
    (confirmEdit exProject "b" exStateC2).2 = none ∧
      (confirmEdit exProject "b" exStateC2).1.visible_entries =
        exStateC2.visible_entries ∧
      (confirmEdit exProject "b" exStateC2).1.expanded_dir_ids =
        exStateC2.expanded_dir_ids ∧
      (confirmEdit exProject "b" exStateC2).1.edit_state = exStateC2.edit_state ∧
      (confirmEdit exProject "b" exStateC2).1.selection =
        cond true (some { worktree_id := 10, entry_id := NEW_ENTRY_ID })
          exStateC2.selection :=
  claim_C2_conflict_rejection exProject "b" exStateC2 ⟨10, 1, true, false, none⟩
    exSnap1 ⟨1, [], false⟩ rfl (by decide) (by decide) (by decide)

/-! ### Claim C9: the completion callback clears the session first -/

/-- Rebuilding the projection never touches the edit session. -/
theorem updateVisibleEntries_edit_state (project : Project) (st : PanelState)
    (ns : Option (Nat × Nat)) :
    (updateVisibleEntries project st ns).edit_state = st.edit_state := rfl

/-- `expand_to_selection` never touches the edit session. -/
theorem expandToSelection_edit_state (project : Project) (st : PanelState) :
    (expandToSelection project st).edit_state = st.edit_state := by
  rw [expandToSelection]
  cases h : selectedEntry project st with
  | none => rfl
  | some p =>
    obtain ⟨wid, snap, entry⟩ := p
    rfl

/-- Claim C9: whatever the asynchronous create/rename task reports, the
completion callback clears the edit session (hence the placeholder vanishes
on the next rebuild); an operation error is propagated only after the
session has been cleared, never instead of clearing it. -/
theorem claim_C9_completion_clears_session (project : Project)
    (worktree_id edited_entry_id : Nat) (st : PanelState)
    (result : Except String (Option Entry)) :
    (confirmCompletion project worktree_id edited_entry_id st result).1.edit_state =
        none ∧
      (confirmCompletion project worktree_id edited_entry_id st result).2 =
        (match result with
         | .error e => .error e
         | .ok _ => .ok ()) := by
  cases result with
  | error e => exact ⟨rfl, rfl⟩
  | ok o =>
    cases o with
    | none => exact ⟨rfl, rfl⟩
    | some newEntry =>
      refine ⟨?_, rfl⟩
      simp only [confirmCompletion, updateVisibleEntries_edit_state]
      split
      · split
        · exact (expandToSelection_edit_state _ _).trans rfl
        · rfl
      · rfl

/-! ### Claim C8: starting edits while a session is Submitting -/

/-- Claim C8 counterexample: with a rename session Submitting, both
`add_entry` and `rename` replace the in-flight session with a fresh editing
one — neither entry point inspects `processing_filename`. -/
theorem claim_C8_counterexample :
    (renameAction exProject exStateC8).edit_state ≠ exStateC8.edit_state ∧
      (renameAction exProject exStateC8).edit_state =
        some ⟨10, 31, false, false, none⟩ ∧
      (addEntry exProject false exStateC8).edit_state =
        some ⟨10, 3, true, false, none⟩ := by
  decide

/-- Claim C8 (amended): neither `add_entry` nor `rename` checks
`processing_filename`; only a Submitting NEW-ENTRY session is protected,
indirectly, because its selection sits on the sentinel placeholder id,
which resolves to no real entry, making both entry points no-ops.
A Submitting rename session enjoys no such protection and is replaced
(see the counterexample). -/
theorem claim_C8_submitting_guard (project : Project) (st : PanelState)
    (es : EditState) (wid : Nat) (snap : Snapshot) (is_dir : Bool)
    (_hes : st.edit_state = some es)
    (_hsub : es.processing_filename.isSome = true)
    (hsel : st.selection = some ⟨wid, NEW_ENTRY_ID⟩)
    (hfw : findWorktree project wid = some snap)
    (hids : ∀ e ∈ snap.entries, e.id ≠ NEW_ENTRY_ID) :
    addEntry project is_dir st = st ∧ renameAction project st = st := by
  have hent : entryForId snap NEW_ENTRY_ID = none := by
    rw [entryForId]
    refine List.find?_eq_none.mpr (fun e he => ?_)
    intro hc
    exact hids e he (by simpa using hc)
  constructor
  · cases h2 : lookupExpanded st.expanded_dir_ids wid with
    | none => simp only [addEntry, hsel, hfw, h2]
    | some expanded => simp only [addEntry, hsel, hfw, h2, hent]
  · simp only [renameAction, hsel, hfw, hent]

/-- Claim C8 witness: the sentinel-selection guard applied to a concrete
Submitting new-entry session. -/
theorem claim_C8_submitting_guard_witness :
    addEntry exProject true exStateC8w = exStateC8w ∧
      renameAction exProject exStateC8w = exStateC8w :=
  claim_C8_submitting_guard exProject exStateC8w ⟨10, 1, true, false, some "n.txt"⟩
    10 exSnap1 true rfl rfl rfl (by decide) (by decide)

/-! ### Claim C7: expand/collapse round-trip on the expansion set -/

/-- Writing a root's expansion vector makes it the one looked up. -/
theorem lookupExpanded_setExpanded (m : List (Nat × List Nat)) (wid : Nat)
    (l : List Nat) : lookupExpanded (setExpanded m wid l) wid = some l := by
  induction m with
  | nil => simp [setExpanded, lookupExpanded]
  | cons hd rest ih =>
    obtain ⟨w, v⟩ := hd
    by_cases hw : w = wid
    · subst hw
      simp [setExpanded, lookupExpanded]
    · rw [setExpanded, if_neg hw, lookupExpanded, List.find?_cons_of_neg]
      · exact ih
      · simp [hw]

/-- A root already present in the expansion map keeps its vector when the
rebuild fills vacant roots. -/
theorem lookupExpanded_updateExpandedForWorktree (m : List (Nat × List Nat))
    (wid0 : Nat) (snap : Snapshot) (wid : Nat) (l : List Nat)
    (h : lookupExpanded m wid = some l) :
    lookupExpanded (updateExpandedForWorktree m wid0 snap).1 wid = some l := by
  rw [updateExpandedForWorktree]
  cases h0 : lookupExpanded m wid0 with
  | some v => exact h
  | none =>
    cases hr : rootEntry snap with
    | none => exact h
    | some root =>
      show lookupExpanded (m ++ [(wid0, [root.id])]) wid = some l
      rw [lookupExpanded, List.find?_append]
      rw [lookupExpanded] at h
      rcases hq : m.find? (fun p => p.1 == wid) with _ | q
      · rw [hq] at h
        exact Option.noConfusion h
      · rw [hq] at h
        rw [hq]
        exact h

/-- Occupied roots keep their expansion vectors across the per-worktree
rebuild loop. -/
theorem lookupExpanded_updateVisibleEntriesGo (edit : Option EditState) :
    ∀ (project : Project) (m : List (Nat × List Nat)) (wid : Nat) (l : List Nat),
      lookupExpanded m wid = some l →
      lookupExpanded (updateVisibleEntriesGo edit project m).1 wid = some l := by
  intro project
  induction project with
  | nil =>
    intro m wid l h
    exact h
  | cons hd rest ih =>
    intro m wid l h
    obtain ⟨w0, snap⟩ := hd
    simp only [updateVisibleEntriesGo]
    exact ih _ wid l (lookupExpanded_updateExpandedForWorktree m w0 snap wid l h)

/-- A full rebuild keeps occupied expansion vectors. -/
theorem lookupExpanded_updateVisibleEntries (project : Project) (st : PanelState)
    (ns : Option (Nat × Nat)) (wid : Nat) (l : List Nat)
    (h : lookupExpanded st.expanded_dir_ids wid = some l) :
    lookupExpanded (updateVisibleEntries project st ns).expanded_dir_ids wid =
      some l :=
  lookupExpanded_updateVisibleEntriesGo st.edit_state project st.expanded_dir_ids
    wid l h

/-- A rebuild with no forced selection keeps the selection. -/
theorem updateVisibleEntries_selection_none (project : Project) (st : PanelState) :
    (updateVisibleEntries project st none).selection = st.selection := rfl

/-- `selected_entry` depends only on the selection. -/
theorem selectedEntry_congr (project : Project) {s t : PanelState}
    (h : s.selection = t.selection) :
    selectedEntry project s = selectedEntry project t := by
  rw [selectedEntry, selectedEntry, h]

/-- Removing a freshly inserted id undoes the insertion. -/
theorem removeSorted_expandInsert {l : List Nat} {x : Nat}
    (h : l.contains x = false) : removeSorted (expandInsert l x) x = l := by
  induction l with
  | nil => simp [expandInsert, removeSorted]
  | cons y rest ih =>
    rw [List.contains_cons] at h
    have hxy : ¬ x = y := by
      intro hc
      rw [hc] at h
      simp at h
    have hrest : rest.contains x = false := (Bool.or_eq_false_iff.mp h).2
    simp only [expandInsert]
    by_cases h1 : x < y
    · rw [if_pos h1]
      simp only [removeSorted]
      rw [if_true]
    · rw [if_neg h1, if_neg hxy]
      simp only [removeSorted]
      rw [if_neg fun hc => hxy hc.symm, ih hrest]

/-- The inserted id is present afterwards. -/
theorem expandInsert_contains (l : List Nat) (x : Nat) :
    (expandInsert l x).contains x = true := by
  induction l with
  | nil => simp [expandInsert]
  | cons y rest ih =>
    simp only [expandInsert]
    by_cases h1 : x < y
    · rw [if_pos h1]
      simp [List.contains_cons]
    · rw [if_neg h1]
      by_cases h2 : x = y
      · rw [if_pos h2]
        simp [List.contains_cons, h2]
      · rw [if_neg h2, List.contains_cons, ih]
        exact Bool.or_true _

/-- Claim C7 counterexample: with directory `a` (id 3) already expanded,
expand-selected degrades to `select_next`, and the following collapse walks
up from the new selection and removes `a` — the expansion set does not
return to its pre-call value, refuting the unrestricted claim. -/
theorem claim_C7_counterexample :
    lookupExpanded exStateC7.expanded_dir_ids 10 = some [1, 3] ∧
      lookupExpanded
          ((collapseSelectedEntry exProjectA
              (expandSelectedEntry exProjectA exStateC7)).expanded_dir_ids) 10 ≠
        some [1, 3] := by
  decide

/-- Claim C7 (amended): for a selected directory X that is NOT yet in its
root's expansion vector, expanding and then collapsing returns that root's
expansion vector to exactly its pre-expand state; when X is already
expanded the round-trip identity fails (see the counterexample). -/
theorem claim_C7_expand_collapse (project : Project) (st : PanelState)
    (wid : Nat) (snap : Snapshot) (entry : Entry) (l : List Nat)
    (hsel : selectedEntry project st = some (wid, snap, entry))
    (hdir : entry.isFile = false)
    (hexp : lookupExpanded st.expanded_dir_ids wid = some l)
    (hnot : l.contains entry.id = false) :
    lookupExpanded
        ((collapseSelectedEntry project
            (expandSelectedEntry project st)).expanded_dir_ids) wid = some l := by
  have h1 : expandSelectedEntry project st =
      updateVisibleEntries project
        { st with
          expanded_dir_ids :=
            setExpanded st.expanded_dir_ids wid (expandInsert l entry.id) }
        none := by
    simp only [expandSelectedEntry, hsel, hdir, Bool.false_eq_true, if_false, hexp,
      hnot]
  rw [h1]
  have hsel2 :
      selectedEntry project
          (updateVisibleEntries project
            { st with
              expanded_dir_ids :=
                setExpanded st.expanded_dir_ids wid (expandInsert l entry.id) }
            none) =
        some (wid, snap, entry) :=
    (selectedEntry_congr project rfl).trans hsel
  have hexp2 :
      lookupExpanded
          (updateVisibleEntries project
            { st with
              expanded_dir_ids :=
                setExpanded st.expanded_dir_ids wid (expandInsert l entry.id) }
            none).expanded_dir_ids wid =
        some (expandInsert l entry.id) :=
    lookupExpanded_updateVisibleEntries project _ none wid _
      (lookupExpanded_setExpanded st.expanded_dir_ids wid (expandInsert l entry.id))
  simp only [collapseSelectedEntry, hsel2, hexp2, collapseLoop,
    expandInsert_contains, eq_self_iff_true, if_true]
  rw [removeSorted_expandInsert hnot]
  exact lookupExpanded_updateVisibleEntries project _ _ wid l
    (lookupExpanded_setExpanded _ wid l)

/-- Claim C7 witness: the amended round-trip theorem on the concrete state
whose selected directory `a` is still collapsed. -/
theorem claim_C7_expand_collapse_witness :
    lookupExpanded
        ((collapseSelectedEntry exProjectA
            (expandSelectedEntry exProjectA exStateC7w)).expanded_dir_ids) 10 =
      some [1] :=
  claim_C7_expand_collapse exProjectA exStateC7w 10 exSnap1 ⟨3, ["a"], false⟩ [1]
    (by decide) (by decide) (by decide) (by decide)

/-! ### Claim C4: the paste collision-naming loop -/

/-- Starting the loop one collision later shifts the tested-path chain by
one step. -/
theorem pathAt_shift (dir : List String) (stem : String) (ext : Option String)
    (path : List String) (ix : Nat) (t : Nat) :
    pathAt dir stem ext (dir ++ [mkCopyName stem ext ix]) (ix + 1) t =
      pathAt dir stem ext path ix (t + 1) := by
  cases t with
  | zero => rfl
  | succ s =>
    simp only [pathAt]
    have h : ix + 1 + s = ix + (s + 1) := by omega
    rw [h]

/-- Running the collision loop over a chain of `m` hits followed by a miss
lands exactly on the `m`-th tested path, given fuel for `m + 1` tests. -/
theorem pasteLoop_run (existsP : List String → Bool) (dir : List String)
    (stem : String) (ext : Option String) :
    ∀ (m ix fuel : Nat) (path : List String),
      m + 1 ≤ fuel →
      (∀ t, t < m → existsP (pathAt dir stem ext path ix t) = true) →
      existsP (pathAt dir stem ext path ix m) = false →
      pasteLoop existsP dir stem ext fuel path ix =
        some (pathAt dir stem ext path ix m) := by
  intro m
  induction m with
  | zero =>
    intro ix fuel path hfuel hhits hmiss
    cases fuel with
    | zero => exact absurd hfuel (by omega)
    | succ f =>
      rw [pathAt] at hmiss
      have hmiss' : ¬ existsP path = true := by
        rw [hmiss]
        exact Bool.false_ne_true
      rw [pasteLoop, if_neg hmiss', pathAt]
  | succ n ih =>
    intro ix fuel path hfuel hhits hmiss
    cases fuel with
    | zero => exact absurd hfuel (by omega)
    | succ f =>
      have hhit0 : existsP path = true := by
        have h0 := hhits 0 (Nat.succ_pos n)
        rw [pathAt] at h0
        exact h0
      rw [pasteLoop, if_pos hhit0, ← pathAt_shift dir stem ext path ix n]
      exact ih (ix + 1) f (dir ++ [mkCopyName stem ext ix]) (by omega)
        (fun t ht => by
          rw [pathAt_shift dir stem ext path ix t]
          exact hhits (t + 1) (by omega))
        (by
          rw [pathAt_shift dir stem ext path ix n]
          exact hmiss)

/-- Claim C4: when the destination directory's existing paths are exactly
the clipboard name plus its first `k` copy-names, the paste-naming loop
terminates within the modeled fuel and produces the `k`-th copy-name:
`stem ++ " copy"`, then `" copy N"`, with the final extension split off by
`file_stem`/`extension` and re-appended unchanged on every candidate. -/
theorem claim_C4_paste_naming (dir : List String) (cname stem : String)
    (ext : Option String) (k : Nat) (existing : List (List String))
    (hsplit : rustFileStemExt cname = (stem, ext))
    (hhead : (dir ++ [cname]) ∈ existing)
    (hcopies : ∀ i, i < k → (dir ++ [mkCopyName stem ext i]) ∈ existing)
    (hfree : (dir ++ [mkCopyName stem ext k]) ∉ existing) :
    pasteDestination (fun p => decide (p ∈ existing)) dir cname (k + 2) =
      some (dir ++ [mkCopyName stem ext k]) := by
  have hits : ∀ t, t < k + 1 →
      (fun p => decide (p ∈ existing))
          (pathAt dir stem ext (dir ++ [cname]) 0 t) = true := by
    intro t ht
    cases t with
    | zero =>
      simp only [pathAt]
      exact decide_eq_true hhead
    | succ s =>
      simp only [pathAt, Nat.zero_add]
      exact decide_eq_true (hcopies s (by omega))
  have hmiss :
      (fun p => decide (p ∈ existing))
          (pathAt dir stem ext (dir ++ [cname]) 0 (k + 1)) = false := by
    simp only [pathAt, Nat.zero_add]
    exact decide_eq_false hfree
  have hrun := pasteLoop_run (fun p => decide (p ∈ existing)) dir stem ext (k + 1)
    0 (k + 2) (dir ++ [cname]) (by omega) hits hmiss
  have hfinal : pathAt dir stem ext (dir ++ [cname]) 0 (k + 1) =
      dir ++ [mkCopyName stem ext k] := by
    show dir ++ [mkCopyName stem ext (0 + k)] = dir ++ [mkCopyName stem ext k]
    rw [Nat.zero_add]
  simp only [pasteDestination, hsplit]
  rw [hrun, hfinal]

/-- Claim C4 witness: pasting `one.two.txt` next to the originals
`one.two.txt` and `one.two copy.txt` lands on `one.two copy 1.txt`
(`mkCopyName "one.two" (some "txt") 1`). -/
theorem claim_C4_paste_naming_witness :
    pasteDestination
        (fun p => decide (p ∈ [["one.two.txt"], ["one.two copy.txt"]])) []
        "one.two.txt" 3 =
      some ([] ++ [mkCopyName "one.two" (some "txt") 1]) :=
  claim_C4_paste_naming [] "one.two.txt" "one.two" (some "txt") 1
    [["one.two.txt"], ["one.two copy.txt"]] (by decide) (by decide) (by decide)
    (by decide)

end ProjectPanel2
